import Mathlib

/-!
Verification of the fine-grained dependency graph constructor
(`lib/AST/SourceFileDepGraphConstructor.cpp`).

The development shallowly embeds the data model (dependency keys, nodes,
arcs, graphs), the provider enumeration (`SourceFileDeclFinder`), the use
enumeration (`UsedDeclEnumerator`) and the graph construction
(`SourceFileDepGraphConstructor`) and proves the specified properties
about them.  Code of the repository that lives outside the translated
file (the `SourceFileDepGraph` store and the `construct` orchestration)
is modelled from the specification, as indicated on each definition.
-/

namespace SwiftDeps

/-- Swift access levels, ordered from most to least restrictive. -/
inductive AccessLevel where
  | privateLevel
  | fileprivateLevel
  | internalLevel
  | publicLevel
  | openLevel
deriving DecidableEq

/-- `getFormalAccess() <= AccessLevel::FilePrivate` for a ValueDecl. -/
def accessIsPrivate : AccessLevel → Bool
  | .privateLevel => true
  | .fileprivateLevel => true
  | _ => false

/-- The declaration kinds distinguished by the constructor.  Kinds that the
source handles identically are kept separate to stay faithful to the
bucketing in `SourceFileDeclFinder`. -/
inductive DKind where
  | importDecl
  | patternBinding
  | enumCase
  | topLevelCode
  | ifConfig
  | poundDiagnostic
  | infixOperatorDecl
  | prefixOperatorDecl
  | postfixOperatorDecl
  | precedenceGroup
  | extensionDecl
  | enumDecl
  | structDecl
  | classDecl
  | protocolDecl
  | typeAlias
  | varDecl
  | funcDecl
  | accessorDecl
deriving DecidableEq

/-- Kinds that are `ValueDecl`s in the source (`dyn_cast<ValueDecl>`). -/
def DKind.isValueDecl : DKind → Bool
  | .enumDecl | .structDecl | .classDecl | .protocolDecl => true
  | .typeAlias | .varDecl | .funcDecl | .accessorDecl => true
  | _ => false

/-- Kinds that are `NominalTypeDecl`s (`dyn_cast<NominalTypeDecl>`). -/
def DKind.isNominal : DKind → Bool
  | .enumDecl | .structDecl | .classDecl | .protocolDecl => true
  | _ => false

/-- Kinds that are `IterableDeclContext`s, the only declarations carrying a
body fingerprint (`getFingerprintIfAny`). -/
def DKind.isIterableDeclContext : DKind → Bool
  | .enumDecl | .structDecl | .classDecl | .protocolDecl | .extensionDecl => true
  | _ => false

/-- One entry of an extension's inherited-type list, as far as
`extendedTypeIsPrivate` inspects it: the type may be absent, may be a
non-existential type (treated conservatively as visible), or is an
existential carrying the access levels of its protocol declarations. -/
inductive InheritedType where
  | nullType
  | nonExistential
  | existential (protocolAccesses : List AccessLevel)
deriving DecidableEq

/-- A declaration as seen by the constructor: its kind, user-facing base
name, formal access, whether its full name is an operator name, its
canonical mangled type identity (for nominal types), its optional body
fingerprint, its members, and — for extensions — the extended nominal and
the inherited-type list. -/
inductive Decl : Type where
  | mk (kind : DKind) (name : String) (access : AccessLevel)
       (hasOperatorName : Bool) (usr : String) (bodyFingerprint : Option String)
       (members : List Decl) (extendedNominal : Option Decl)
       (inherited : List InheritedType) : Decl

def Decl.kind : Decl → DKind | .mk k _ _ _ _ _ _ _ _ => k
def Decl.name : Decl → String | .mk _ n _ _ _ _ _ _ _ => n
def Decl.access : Decl → AccessLevel | .mk _ _ a _ _ _ _ _ _ => a
def Decl.hasOperatorName : Decl → Bool | .mk _ _ _ o _ _ _ _ _ => o
def Decl.usr : Decl → String | .mk _ _ _ _ u _ _ _ _ => u
def Decl.bodyFingerprint : Decl → Option String | .mk _ _ _ _ _ f _ _ _ => f
def Decl.members : Decl → List Decl | .mk _ _ _ _ _ _ m _ _ => m
def Decl.extendedNominal : Decl → Option Decl | .mk _ _ _ _ _ _ _ e _ => e
def Decl.inherited : Decl → List InheritedType | .mk _ _ _ _ _ _ _ _ i => i

/-- `VD->hasName()`. -/
def Decl.hasName (d : Decl) : Bool := !d.name.isEmpty

mutual
/-- Size measure used for termination of the recursive declaration walk. -/
def declSize : Decl → Nat
  | .mk _ _ _ _ _ _ ms ext _ => 1 + declListSize ms + declOptSize ext
def declListSize : List Decl → Nat
  | [] => 0
  | d :: ds => 1 + declSize d + declListSize ds
def declOptSize : Option Decl → Nat
  | none => 0
  | some d => declSize d
end

theorem declListSize_members_lt (d : Decl) : declListSize d.members < declSize d := by
  cases d with
  | mk k n a o u f ms ext i =>
    simp only [Decl.members, declSize]
    omega

/-- `mangleTypeAsContext`: the canonical type identity, `""` for a null
declaration. -/
def mangleTypeAsContext : Option Decl → String
  | none => ""
  | some d => d.usr

/-- `declIsPrivate(const Decl *D)`: true if the declaration cannot affect
other files.  ValueDecls are judged by access level; a fixed set of kinds
is inherently local; extensions and operators are never private by this
rule alone.  (The C++ `default:` branch is `llvm_unreachable`; it is
modelled as `false` and is never exercised.) -/
def declIsPrivate (d : Decl) : Bool :=
  if d.kind.isValueDecl then accessIsPrivate d.access
  else
    match d.kind with
    | .importDecl | .patternBinding | .enumCase | .topLevelCode
    | .ifConfig | .poundDiagnostic => true
    | .extensionDecl | .infixOperatorDecl | .prefixOperatorDecl
    | .postfixOperatorDecl => false
    | _ => false

/-- `allMembersArePrivate(ED)`. -/
def allMembersArePrivate (ed : Decl) : Bool :=
  ed.members.all declIsPrivate

/-- `extendedTypeIsPrivate(TypeLoc)`: a null type is private; a
non-existential type is conservatively visible; an existential is private
iff all of its protocols are. -/
def extendedTypeIsPrivate : InheritedType → Bool
  | .nullType => true
  | .nonExistential => false
  | .existential ps => ps.all accessIsPrivate

/-- `allInheritedProtocolsArePrivate(ED)`. -/
def allInheritedProtocolsArePrivate (ed : Decl) : Bool :=
  ed.inherited.all extendedTypeIsPrivate

/-- `SourceFileDeclFinder::excludeIfPrivate`. -/
def excludeIfPrivate (includePrivateDecls : Bool) (d : Decl) : Bool :=
  !includePrivateDecls && declIsPrivate d

/-- The mutable part of `SourceFileDeclFinder` filled in by the recursive
walk `findNominalsAndOperatorsIn`. -/
structure WalkState where
  allNominals : List Decl
  potentialMemberHolders : List Decl
  memberOperatorDecls : List Decl
deriving Inhabited

mutual
/-- `SourceFileDeclFinder::findNominalsAndOperatorsIn(NTD, ED)`. -/
def findNominalsAndOperatorsIn (inc : Bool) (st : WalkState) (ntd : Decl)
    (ed : Option Decl) : WalkState :=
  match ed with
  | some e =>
    if excludeIfPrivate inc ntd then st
    else
      let exposedProtocolIsExtended := !allInheritedProtocolsArePrivate e
      if !inc && !exposedProtocolIsExtended && allMembersArePrivate e then st
      else
        let st1 :=
          if inc || exposedProtocolIsExtended then
            { st with allNominals := st.allNominals ++ [ntd] }
          else st
        let st2 :=
          { st1 with potentialMemberHolders := st1.potentialMemberHolders ++ [ntd] }
        findNominalsAndOperatorsInMembers inc st2 e.members
  | none =>
    if excludeIfPrivate inc ntd then st
    else
      let st1 := { st with allNominals := st.allNominals ++ [ntd] }
      let st2 :=
        { st1 with potentialMemberHolders := st1.potentialMemberHolders ++ [ntd] }
      findNominalsAndOperatorsInMembers inc st2 ntd.members
termination_by declSize (ed.getD ntd)
decreasing_by
  · simp only [Option.getD_some]
    exact declListSize_members_lt e
  · simp only [Option.getD_none]
    exact declListSize_members_lt ntd

/-- `SourceFileDeclFinder::findNominalsAndOperatorsInMembers`. -/
def findNominalsAndOperatorsInMembers (inc : Bool) (st : WalkState)
    (ms : List Decl) : WalkState :=
  match ms with
  | [] => st
  | d :: ds =>
    let st1 :=
      if !d.kind.isValueDecl then st
      else if excludeIfPrivate inc d then st
      else if d.hasOperatorName then
        { st with memberOperatorDecls := st.memberOperatorDecls ++ [d] }
      else if d.kind.isNominal then findNominalsAndOperatorsIn inc st d none
      else st
    findNominalsAndOperatorsInMembers inc st1 ds
termination_by declListSize ms
decreasing_by
  · simp only [Option.getD_none, declListSize]
    omega
  · simp only [declListSize]
    omega
end

/-- The buckets into which `SourceFileDeclFinder`'s constructor sorts the
top-level declarations via the `select` chain.  Extensions, operators and
precedence groups are collected without a privacy check; top nominals and
top values are dropped when `excludeIfPrivate` holds. -/
structure DeclBuckets where
  extensions : List Decl
  operators : List Decl
  precedenceGroups : List Decl
  topNominals : List Decl
  topValues : List Decl

/-- The `select<...>` chain in `SourceFileDeclFinder`'s constructor. -/
def selectDecl (inc : Bool) (b : DeclBuckets) (d : Decl) : DeclBuckets :=
  match d.kind with
  | .extensionDecl => { b with extensions := b.extensions ++ [d] }
  | .infixOperatorDecl | .prefixOperatorDecl | .postfixOperatorDecl =>
      { b with operators := b.operators ++ [d] }
  | .precedenceGroup => { b with precedenceGroups := b.precedenceGroups ++ [d] }
  | .enumDecl | .structDecl | .classDecl | .protocolDecl =>
      if excludeIfPrivate inc d then b
      else { b with topNominals := b.topNominals ++ [d] }
  | .typeAlias | .varDecl | .funcDecl | .accessorDecl =>
      if excludeIfPrivate inc d then b
      else { b with topValues := b.topValues ++ [d] }
  | _ => b

def bucketTopLevelDecls (inc : Bool) (ds : List Decl) : DeclBuckets :=
  ds.foldl (selectDecl inc) ⟨[], [], [], [], []⟩

/-- `SourceFileDeclFinder::findNominalsFromExtensions`. -/
def findNominalsFromExtensions (inc : Bool) (st : WalkState)
    (eds : List Decl) : WalkState :=
  eds.foldl
    (fun s ed =>
      match ed.extendedNominal with
      | some ntd => findNominalsAndOperatorsIn inc s ntd (some ed)
      | none => s)
    st

/-- `SourceFileDeclFinder::findNominalsInTopNominals`. -/
def findNominalsInTopNominals (inc : Bool) (st : WalkState)
    (ns : List Decl) : WalkState :=
  ns.foldl (fun s n => findNominalsAndOperatorsIn inc s n none) st

/-- `SourceFileDeclFinder::findValuesInExtensions`. -/
def findValuesInExtensions (inc : Bool) (eds : List Decl) :
    List (Decl × Decl) :=
  eds.foldl
    (fun acc ed =>
      match ed.extendedNominal with
      | none => acc
      | some ntd =>
        if excludeIfPrivate inc ntd then acc
        else if !inc &&
            (!allInheritedProtocolsArePrivate ed || allMembersArePrivate ed) then
          acc
        else
          acc ++ ed.members.filterMap (fun m =>
            if m.kind.isValueDecl && m.hasName && (inc || !declIsPrivate m) then
              some (ntd, m)
            else none))
    []

/-- The front-end collaborator state one unit exposes to the constructor:
the declaration tree, the class members found by dynamic lookup, the
interface hash, the reference-tracking maps (modelled as association
lists; their iteration order is the list order) and the external
dependency list. -/
structure SourceFileModel where
  topLevelDecls : List Decl
  classMembers : List Decl
  interfaceHash : String
  topLevelNames : List (String × Bool)
  dynamicLookupNames : List (String × Bool)
  usedMembers : List (Decl × String × Bool)
  externalDependencies : List String

/-- All of `SourceFileDeclFinder`'s fields after construction. -/
structure FinderResult where
  extensions : List Decl
  operators : List Decl
  precedenceGroups : List Decl
  topNominals : List Decl
  topValues : List Decl
  allNominals : List Decl
  potentialMemberHolders : List Decl
  memberOperatorDecls : List Decl
  valuesInExtensions : List (Decl × Decl)
  classMembers : List Decl

/-- `SourceFileDeclFinder`'s constructor: bucket the top-level
declarations, then run the walks in their stated order. -/
def runDeclFinder (inc : Bool) (sf : SourceFileModel) : FinderResult :=
  let b := bucketTopLevelDecls inc sf.topLevelDecls
  let st := findNominalsFromExtensions inc ⟨[], [], []⟩ b.extensions
  let st := findNominalsInTopNominals inc st b.topNominals
  let vie := findValuesInExtensions inc b.extensions
  ⟨b.extensions, b.operators, b.precedenceGroups, b.topNominals, b.topValues,
   st.allNominals, st.potentialMemberHolders, st.memberOperatorDecls, vie,
   sf.classMembers⟩

/-! ## Dependency keys -/

/-- `NodeKind` (the whole-unit kind is `sourceFileProvide` in the source). -/
inductive NodeKind where
  | topLevel
  | nominal
  | potentialMember
  | member
  | dynamicLookup
  | externalDepend
  | sourceFileProvide
deriving DecidableEq

/-- `DeclAspect`. -/
inductive DeclAspect where
  | interface
  | implementation
deriving DecidableEq

/-- `DependencyKey = (kind, aspect, context, name)`. -/
structure DependencyKey where
  kind : NodeKind
  aspect : DeclAspect
  context : String
  name : String
deriving DecidableEq

/-- `DependencyKey::createKeyForWholeSourceFile`: kind `sourceFileProvide`,
empty context, name = the swiftDeps path. -/
def DependencyKey.createKeyForWholeSourceFile (aspect : DeclAspect)
    (swiftDeps : String) : DependencyKey :=
  ⟨.sourceFileProvide, aspect, "", swiftDeps⟩

/-- `createForProvidedEntityInterface<topLevel>` for any named entity:
empty context, user-facing name. -/
def keyForTopLevelName (n : String) : DependencyKey :=
  ⟨.topLevel, .interface, "", n⟩

/-- `createForProvidedEntityInterface<nominal>`: context is the mangled
type identity, empty name. -/
def keyForNominal (d : Decl) : DependencyKey :=
  ⟨.nominal, .interface, mangleTypeAsContext (some d), ""⟩

/-- `createForProvidedEntityInterface<potentialMember>`. -/
def keyForPotentialMember (d : Decl) : DependencyKey :=
  ⟨.potentialMember, .interface, mangleTypeAsContext (some d), ""⟩

/-- `createForProvidedEntityInterface<member>` on a (holder, member) pair:
context is the holder's mangled identity, name the member's base name. -/
def keyForMemberPair (holder m : Decl) : DependencyKey :=
  ⟨.member, .interface, mangleTypeAsContext (some holder), m.name⟩

/-- `createForProvidedEntityInterface<dynamicLookup>`. -/
def keyForDynamicLookup (d : Decl) : DependencyKey :=
  ⟨.dynamicLookup, .interface, "", d.name⟩

/-- `DependencyKey::createDependedUponKey(mangledHolderName,
memberBaseName)`: a blank member name denotes a potential member. -/
def DependencyKey.createDependedUponKey (mangledHolderName memberBaseName : String) :
    DependencyKey :=
  let isMemberBlank := memberBaseName.isEmpty
  let kind := if isMemberBlank then NodeKind.potentialMember else NodeKind.member
  ⟨kind, .interface, mangledHolderName, if isMemberBlank then "" else memberBaseName⟩

/-- `getFingerprintIfAny(const Decl *)`: only `IterableDeclContext`s carry
a body fingerprint. -/
def getFingerprintIfAny (d : Decl) : Option String :=
  if d.kind.isIterableDeclContext then d.bodyFingerprint else none

/-- `SourceFileDepGraphConstructor::enumerateDefinedDecls`: the (interface
key, optional fingerprint) stream handed to `addDefinedDecl`, in source
order.  Pairs from `valuesInExtensions` carry no fingerprint
(`getFingerprintIfAny(pair)` is `None`). -/
def enumerateDefinedDecls (inc : Bool) (sf : SourceFileModel) :
    List (DependencyKey × Option String) :=
  let f := runDeclFinder inc sf
  f.precedenceGroups.map (fun d => (keyForTopLevelName d.name, getFingerprintIfAny d))
  ++ f.memberOperatorDecls.map (fun d => (keyForTopLevelName d.name, getFingerprintIfAny d))
  ++ f.operators.map (fun d => (keyForTopLevelName d.name, getFingerprintIfAny d))
  ++ f.topNominals.map (fun d => (keyForTopLevelName d.name, getFingerprintIfAny d))
  ++ f.topValues.map (fun d => (keyForTopLevelName d.name, getFingerprintIfAny d))
  ++ f.allNominals.map (fun d => (keyForNominal d, getFingerprintIfAny d))
  ++ f.potentialMemberHolders.map (fun d => (keyForPotentialMember d, getFingerprintIfAny d))
  ++ f.valuesInExtensions.map (fun p => (keyForMemberPair p.1 p.2, none))
  ++ f.classMembers.map (fun d => (keyForDynamicLookup d, getFingerprintIfAny d))

/-! ## The use enumerator -/

def sourceFileInterfaceKey (swiftDeps : String) : DependencyKey :=
  DependencyKey.createKeyForWholeSourceFile .interface swiftDeps

def sourceFileImplementationKey (swiftDeps : String) : DependencyKey :=
  DependencyKey.createKeyForWholeSourceFile .implementation swiftDeps

/-- `UsedDeclEnumerator::enumerateUse`: the depended-upon key is built at
the interface aspect; the using key is the unit's interface key when the
use cascades and its implementation key otherwise. -/
def enumerateUse (swiftDeps : String) (kind : NodeKind) (context name : String)
    (isCascadingUse : Bool) : DependencyKey × DependencyKey :=
  (⟨kind, .interface, context, name⟩,
   if isCascadingUse then sourceFileInterfaceKey swiftDeps
   else sourceFileImplementationKey swiftDeps)

/-- `UsedDeclEnumerator::enumerateSimpleUses`. -/
def enumerateSimpleUses (kind : NodeKind) (swiftDeps : String)
    (cascadesByName : List (String × Bool)) :
    List (DependencyKey × DependencyKey) :=
  cascadesByName.map (fun p => enumerateUse swiftDeps kind "" p.1 p.2)

/-- `UsedDeclEnumerator::computeHoldersOfCascadingMembers`: the contexts of
holders of cascading member uses, skipping private holders unless
intrafile dependencies are included.  (The C++ `StringSet` deduplicates;
only membership is ever queried, so a plain list is kept.) -/
def computeHoldersOfCascadingMembers (includeIntrafileDeps : Bool)
    (usedMembers : List (Decl × String × Bool)) : List String :=
  usedMembers.foldl
    (fun acc e =>
      if declIsPrivate e.1 && !includeIntrafileDeps then acc
      else if e.2.2 then acc ++ [mangleTypeAsContext (some e.1)]
      else acc)
    []

/-- `UsedDeclEnumerator::enumerateNominalUses`: one nominal-kind use per
non-skipped used-members entry, cascading iff the holder's context is a
holder of cascading members. -/
def enumerateNominalUses (swiftDeps : String) (includeIntrafileDeps : Bool)
    (usedMembers : List (Decl × String × Bool)) :
    List (DependencyKey × DependencyKey) :=
  let holders := computeHoldersOfCascadingMembers includeIntrafileDeps usedMembers
  usedMembers.filterMap
    (fun e =>
      if declIsPrivate e.1 && !includeIntrafileDeps then none
      else
        some (enumerateUse swiftDeps .nominal (mangleTypeAsContext (some e.1)) ""
          (holders.contains (mangleTypeAsContext (some e.1)))))

/-- `UsedDeclEnumerator::enumerateMemberUses`: one member-kind (name
present) or potentialMember-kind (name empty) use per used-members entry,
with the entry's own cascade flag. -/
def enumerateMemberUses (swiftDeps : String)
    (usedMembers : List (Decl × String × Bool)) :
    List (DependencyKey × DependencyKey) :=
  usedMembers.map
    (fun e =>
      if e.2.1.isEmpty then
        enumerateUse swiftDeps .potentialMember (mangleTypeAsContext (some e.1)) "" e.2.2
      else
        enumerateUse swiftDeps .member (mangleTypeAsContext (some e.1)) e.2.1 e.2.2)

/-- `UsedDeclEnumerator::enumerateExternalUses`: external dependencies
always cascade. -/
def enumerateExternalUses (swiftDeps : String) (deps : List String) :
    List (DependencyKey × DependencyKey) :=
  deps.map (fun s => enumerateUse swiftDeps .externalDepend "" s true)

/-- `UsedDeclEnumerator::enumerateAllUses`: simple top-level uses, then
dynamic-lookup uses, then external uses, then the compound (nominal and
member) uses. -/
def enumerateAllUses (swiftDeps : String) (includeIntrafileDeps : Bool)
    (sf : SourceFileModel) : List (DependencyKey × DependencyKey) :=
  enumerateSimpleUses .topLevel swiftDeps sf.topLevelNames
  ++ enumerateSimpleUses .dynamicLookup swiftDeps sf.dynamicLookupNames
  ++ enumerateExternalUses swiftDeps sf.externalDependencies
  ++ (enumerateNominalUses swiftDeps includeIntrafileDeps sf.usedMembers
      ++ enumerateMemberUses swiftDeps sf.usedMembers)

/-- The flag computation in `emitReferenceDependencies`: intrafile
dependencies are included when requested by the language options or
whenever type fingerprints are enabled. -/
def computeIncludeIntrafileDeps (includeIntrafileOnes enableTypeFingerprints : Bool) :
    Bool :=
  includeIntrafileOnes || enableTypeFingerprints

/-! ## The graph store

The `SourceFileDepGraph` node store itself is not part of the translated
file (only its callers are), so the store operations are modelled from the
specification: nodes carry a key, an optional write-once fingerprint and
an `isProvides` flag; `findExistingNodeOrCreateIfNew` is an idempotent
find-or-create keyed on the full dependency key that never overwrites an
existing node; the node-pair variant forces the interface aspect and adds
the same-context/name implementation twin; arcs are appended pairs of
node ids. -/

/-- A graph node: its key, optional content fingerprint, and whether it
was created as a definition. -/
structure DepNode where
  key : DependencyKey
  fingerprint : Option String
  isProvides : Bool
deriving DecidableEq

/-- The per-unit graph: nodes addressed by their list index, arcs as
(from-id, to-id) pairs. -/
structure DepGraph where
  nodes : List DepNode
  arcs : List (Nat × Nat)
deriving DecidableEq

def emptyGraph : DepGraph := ⟨[], []⟩

/-- Index of the first node carrying the given key. -/
def findKeyIdx (k : DependencyKey) : List DepNode → Option Nat
  | [] => none
  | n :: ns => if n.key = k then some 0 else (findKeyIdx k ns).map (· + 1)

/-- `SourceFileDepGraph::findExistingNode` by key (spec §4.2 `findNode`). -/
def DepGraph.findNodeIdx (g : DepGraph) (k : DependencyKey) : Option Nat :=
  findKeyIdx k g.nodes

def DepGraph.nodeAt (g : DepGraph) (i : Nat) : Option DepNode :=
  g.nodes.get? i

/-- Modelled from the spec: `SourceFileDepGraph::findExistingNodeOrCreateIfNew`
(the store is not under the translated sources).  Idempotent; an existing
node — its fingerprint included — is returned untouched. -/
def DepGraph.findExistingNodeOrCreateIfNew (g : DepGraph) (k : DependencyKey)
    (fp : Option String) (isProvides : Bool) : DepGraph × Nat :=
  match g.findNodeIdx k with
  | some i => (g, i)
  | none =>
    ({ g with nodes := g.nodes ++ [⟨k, fp, isProvides⟩] }, g.nodes.length)

/-- Modelled from the spec:
`SourceFileDepGraph::findExistingNodePairOrCreateAndAddIfNew` — the aspect
is forced to interface, an implementation twin is kept alongside, both are
definition nodes carrying the fingerprint, and repeat calls change
nothing. -/
def DepGraph.findExistingNodePairOrCreateAndAddIfNew (g : DepGraph)
    (k : DependencyKey) (fp : Option String) : DepGraph × Nat × Nat :=
  let ik : DependencyKey := { k with aspect := .interface }
  let mk : DependencyKey := { k with aspect := .implementation }
  let r1 := g.findExistingNodeOrCreateIfNew ik fp true
  let r2 := r1.1.findExistingNodeOrCreateIfNew mk fp true
  (r2.1, r1.2, r2.2)

/-- `SourceFileDepGraph::addArc` (spec §4.2): append an edge. -/
def DepGraph.addArc (g : DepGraph) (fromId toId : Nat) : DepGraph :=
  { g with arcs := g.arcs ++ [(fromId, toId)] }

/-- `SourceFileDepGraphConstructor::addSourceFileNodesToGraph`: record the
whole-unit node pair under the interface fingerprint. -/
def addSourceFileNodesToGraph (g : DepGraph) (swiftDeps fingerprint : String) :
    DepGraph :=
  (g.findExistingNodePairOrCreateAndAddIfNew
    (DependencyKey.createKeyForWholeSourceFile .interface swiftDeps)
    (some fingerprint)).1

/-- `SourceFileDepGraph::getSourceFileNodePair().getInterface()`, resolved
by key. -/
def sourceFileInterfaceIdx (g : DepGraph) (swiftDeps : String) : Nat :=
  (g.findNodeIdx (sourceFileInterfaceKey swiftDeps)).getD 0

/-- `SourceFileDepGraphConstructor::addDefinedDecl`: find-or-create the
node pair for the interface key and add the dominance arc from the
whole-unit interface node to the pair's interface node. -/
def addDefinedDecl (swiftDeps : String) (g : DepGraph)
    (interfaceKey : DependencyKey) (fingerprint : Option String) : DepGraph :=
  let r := g.findExistingNodePairOrCreateAndAddIfNew interfaceKey fingerprint
  r.1.addArc (sourceFileInterfaceIdx r.1 swiftDeps) r.2.1

/-- `SourceFileDepGraphConstructor::addAllDefinedDecls` over an explicit
stream of defined declarations. -/
def addAllDefinedDecls (swiftDeps : String) (g : DepGraph)
    (defs : List (DependencyKey × Option String)) : DepGraph :=
  defs.foldl (fun g p => addDefinedDecl swiftDeps g p.1 p.2) g

/-- One step of `SourceFileDepGraphConstructor::addAllUsedDecls`: the used
("def") key is found-or-created with no fingerprint and
`isProvides = false`; the using key must already exist as a provider node
— the two C++ `assert`s are unrecoverable, modelled as `none`. -/
def addUsedDecl (g : DepGraph) (p : DependencyKey × DependencyKey) :
    Option DepGraph :=
  let r := g.findExistingNodeOrCreateIfNew p.1 none false
  match r.1.findNodeIdx p.2 with
  | none => none
  | some useIdx =>
    match r.1.nodeAt useIdx with
    | none => none
    | some useNode =>
      if useNode.isProvides then some (r.1.addArc r.2 useIdx) else none

/-- `SourceFileDepGraphConstructor::addAllUsedDecls` over an explicit
stream of (used key, using key) pairs. -/
def addAllUsedDecls (g : DepGraph)
    (uses : List (DependencyKey × DependencyKey)) : Option DepGraph :=
  uses.foldlM addUsedDecl g

/-- `SourceFileDepGraphConstructor::addSourceFileNodesAndThen` composed
with the two enumeration drivers.  Modelled from the spec: the
`construct` entry point is outside the translated file; per §2 it records
the whole-unit node pair, and — unless the unit had a compilation error —
drives the provider stream into dominance arcs and then the use stream
into depends-on arcs. -/
def construct (hadCompilationError : Bool) (swiftDeps fingerprint : String)
    (defs : List (DependencyKey × Option String))
    (uses : List (DependencyKey × DependencyKey)) : Option DepGraph :=
  let g0 := addSourceFileNodesToGraph emptyGraph swiftDeps fingerprint
  if hadCompilationError then some g0
  else addAllUsedDecls (addAllDefinedDecls swiftDeps g0 defs) uses

/-- The whole pipeline of `emitReferenceDependencies` up to the completed
graph: enumerate providers and uses from the source-file model and
construct.  The same flag feeds both the private-declaration inclusion
and the intrafile-dependency inclusion, as in the source. -/
def emitGraph (includeIntrafileDeps hadCompilationError : Bool)
    (swiftDeps : String) (sf : SourceFileModel) : Option DepGraph :=
  construct hadCompilationError swiftDeps sf.interfaceHash
    (enumerateDefinedDecls includeIntrafileDeps sf)
    (enumerateAllUses swiftDeps includeIntrafileDeps sf)

/-! ## Derived views of a graph -/

/-- The keys of all nodes, in id order. -/
def nodeKeys (g : DepGraph) : List DependencyKey := g.nodes.map DepNode.key

/-- The first node carrying a key, if any. -/
def nodeByKey (g : DepGraph) (k : DependencyKey) : Option DepNode :=
  (g.findNodeIdx k).bind g.nodeAt

/-- The fingerprint the graph associates to a key (`none` when the key has
no node). -/
def fpByKey (g : DepGraph) (k : DependencyKey) : Option (Option String) :=
  (nodeByKey g k).map DepNode.fingerprint

/-- The arcs of a graph identified by the keys of their endpoints. -/
def arcEndpointKeys (g : DepGraph) : List (DependencyKey × DependencyKey) :=
  g.arcs.filterMap (fun a =>
    match g.nodeAt a.1, g.nodeAt a.2 with
    | some x, some y => some (x.key, y.key)
    | _, _ => none)

/-- Every arc endpoint is a live node id. -/
def arcsBounded (g : DepGraph) : Prop :=
  ∀ a ∈ g.arcs, a.1 < g.nodes.length ∧ a.2 < g.nodes.length

/-- The key resolves to an existing node that is a provider. -/
def foundIsProvider (g : DepGraph) (k : DependencyKey) : Prop :=
  ∃ i n, g.findNodeIdx k = some i ∧ g.nodeAt i = some n ∧ n.isProvides = true

/-! ## Lemmas about key lookup -/

theorem findKeyIdx_eq_none_iff (k : DependencyKey) (l : List DepNode) :
    findKeyIdx k l = none ↔ ∀ n ∈ l, n.key ≠ k := by
  induction l with
  | nil => simp [findKeyIdx]
  | cons n ns ih =>
    by_cases h : n.key = k <;> simp [findKeyIdx, h, ih]

theorem findKeyIdx_some (k : DependencyKey) (l : List DepNode) (i : Nat)
    (h : findKeyIdx k l = some i) :
    ∃ n, l.get? i = some n ∧ n.key = k := by
  induction l generalizing i with
  | nil => simp [findKeyIdx] at h
  | cons n ns ih =>
    by_cases hk : n.key = k
    · simp [findKeyIdx, hk] at h
      subst h
      exact ⟨n, rfl, hk⟩
    · simp [findKeyIdx, hk] at h
      obtain ⟨j, hj, rfl⟩ := h
      obtain ⟨m, hm, hmk⟩ := ih j hj
      exact ⟨m, by simpa using hm, hmk⟩

theorem findKeyIdx_lt (k : DependencyKey) (l : List DepNode) (i : Nat)
    (h : findKeyIdx k l = some i) : i < l.length := by
  obtain ⟨n, hn, -⟩ := findKeyIdx_some k l i h
  exact (List.get?_eq_some.mp hn).1

theorem findKeyIdx_append_some (k : DependencyKey) (l t : List DepNode) (i : Nat)
    (h : findKeyIdx k l = some i) : findKeyIdx k (l ++ t) = some i := by
  induction l generalizing i with
  | nil => simp [findKeyIdx] at h
  | cons n ns ih =>
    by_cases hk : n.key = k
    · simp [findKeyIdx, hk] at h ⊢
      exact h
    · simp [findKeyIdx, hk] at h ⊢
      obtain ⟨j, hj, rfl⟩ := h
      exact ⟨j, ih j hj, rfl⟩

theorem findKeyIdx_append_of_none (k : DependencyKey) (l t : List DepNode)
    (h : findKeyIdx k l = none) :
    findKeyIdx k (l ++ t) = (findKeyIdx k t).map (· + l.length) := by
  induction l with
  | nil => simp
  | cons n ns ih =>
    by_cases hk : n.key = k
    · simp [findKeyIdx, hk] at h
    · simp [findKeyIdx, hk] at h ⊢
      rw [ih h]
      cases findKeyIdx k t <;> simp
      omega

theorem get?_append_left {α : Type} (l t : List α) (i : Nat) {x : α}
    (h : l.get? i = some x) : (l ++ t).get? i = some x := by
  rw [List.get?_append]
  · exact h
  · exact (List.get?_eq_some.mp h).1

/-! ## Lemmas about find-or-create and arcs -/

theorem fc_of_found (g : DepGraph) (k : DependencyKey) (fp : Option String)
    (pr : Bool) (i : Nat) (h : g.findNodeIdx k = some i) :
    g.findExistingNodeOrCreateIfNew k fp pr = (g, i) := by
  simp [DepGraph.findExistingNodeOrCreateIfNew, h]

theorem fc_of_new (g : DepGraph) (k : DependencyKey) (fp : Option String)
    (pr : Bool) (h : g.findNodeIdx k = none) :
    g.findExistingNodeOrCreateIfNew k fp pr =
      ({ g with nodes := g.nodes ++ [⟨k, fp, pr⟩] }, g.nodes.length) := by
  simp [DepGraph.findExistingNodeOrCreateIfNew, h]

/-- Find-or-create appends at most one node, never touches arcs, and its
returned id addresses a node with the requested key. -/
theorem fc_spec (g : DepGraph) (k : DependencyKey) (fp : Option String)
    (pr : Bool) :
    ∃ ext, (g.findExistingNodeOrCreateIfNew k fp pr).1.nodes = g.nodes ++ ext ∧
      (g.findExistingNodeOrCreateIfNew k fp pr).1.arcs = g.arcs ∧
      ∃ n, (g.findExistingNodeOrCreateIfNew k fp pr).1.nodeAt
            (g.findExistingNodeOrCreateIfNew k fp pr).2 = some n ∧ n.key = k := by
  cases h : g.findNodeIdx k with
  | some i =>
    rw [fc_of_found g k fp pr i h]
    obtain ⟨n, hn, hk⟩ := findKeyIdx_some k g.nodes i h
    exact ⟨[], by simp, rfl, n, hn, hk⟩
  | none =>
    rw [fc_of_new g k fp pr h]
    refine ⟨[⟨k, fp, pr⟩], rfl, rfl, ⟨k, fp, pr⟩, ?_, rfl⟩
    simp [DepGraph.nodeAt, List.get?_concat_length]

/-! ## Graph extension -/

/-- `g` evolved into `h` by appending nodes and arcs only. -/
def DepGraph.Extends (g h : DepGraph) : Prop :=
  (∃ en, h.nodes = g.nodes ++ en) ∧ (∃ ea, h.arcs = g.arcs ++ ea)

theorem extends_refl (g : DepGraph) : g.Extends g :=
  ⟨⟨[], by simp⟩, ⟨[], by simp⟩⟩

theorem extends_trans {g h k : DepGraph} (h1 : g.Extends h) (h2 : h.Extends k) :
    g.Extends k := by
  obtain ⟨⟨en1, hn1⟩, ⟨ea1, ha1⟩⟩ := h1
  obtain ⟨⟨en2, hn2⟩, ⟨ea2, ha2⟩⟩ := h2
  exact ⟨⟨en1 ++ en2, by simp [hn2, hn1]⟩, ⟨ea1 ++ ea2, by simp [ha2, ha1]⟩⟩

theorem extends_nodeAt {g h : DepGraph} (he : g.Extends h) {i : Nat} {n : DepNode}
    (hn : g.nodeAt i = some n) : h.nodeAt i = some n := by
  obtain ⟨⟨en, hen⟩, -⟩ := he
  simpa [DepGraph.nodeAt, hen] using get?_append_left g.nodes en i hn

theorem extends_findNodeIdx {g h : DepGraph} (he : g.Extends h) {k : DependencyKey}
    {i : Nat} (hf : g.findNodeIdx k = some i) : h.findNodeIdx k = some i := by
  obtain ⟨⟨en, hen⟩, -⟩ := he
  simpa [DepGraph.findNodeIdx, hen] using
    findKeyIdx_append_some k g.nodes en i hf

theorem extends_arcMem {g h : DepGraph} (he : g.Extends h) {a : Nat × Nat}
    (ha : a ∈ g.arcs) : a ∈ h.arcs := by
  obtain ⟨-, ⟨ea, hea⟩⟩ := he
  simp [hea, ha]

theorem extends_foundIsProvider {g h : DepGraph} (he : g.Extends h)
    {k : DependencyKey} (hf : foundIsProvider g k) : foundIsProvider h k := by
  obtain ⟨i, n, h1, h2, h3⟩ := hf
  exact ⟨i, n, extends_findNodeIdx he h1, extends_nodeAt he h2, h3⟩

theorem extends_nodeByKey {g h : DepGraph} (he : g.Extends h)
    {k : DependencyKey} {n : DepNode} (hf : nodeByKey g k = some n) :
    nodeByKey h k = some n := by
  unfold nodeByKey at hf ⊢
  cases hfi : g.findNodeIdx k with
  | none =>
    rw [hfi] at hf
    exact absurd hf (by simp)
  | some i =>
    rw [hfi] at hf
    simp only [Option.some_bind] at hf
    rw [extends_findNodeIdx he hfi]
    simpa using extends_nodeAt he hf

theorem fc_extends (g : DepGraph) (k : DependencyKey) (fp : Option String)
    (pr : Bool) : g.Extends (g.findExistingNodeOrCreateIfNew k fp pr).1 := by
  obtain ⟨ext, hn, ha, -⟩ := fc_spec g k fp pr
  exact ⟨⟨ext, hn⟩, ⟨[], by simp [ha]⟩⟩

theorem pair_extends (g : DepGraph) (k : DependencyKey) (fp : Option String) :
    g.Extends (g.findExistingNodePairOrCreateAndAddIfNew k fp).1 := by
  unfold DepGraph.findExistingNodePairOrCreateAndAddIfNew
  exact extends_trans (fc_extends g _ fp true) (fc_extends _ _ fp true)

theorem addArc_extends (g : DepGraph) (a b : Nat) : g.Extends (g.addArc a b) :=
  ⟨⟨[], by simp [DepGraph.addArc]⟩, ⟨[(a, b)], rfl⟩⟩

/-- The interface node returned by the pair operation carries the
interface-aspect version of the requested key. -/
theorem pair_interface_node (g : DepGraph) (k : DependencyKey)
    (fp : Option String) :
    ∃ n, (g.findExistingNodePairOrCreateAndAddIfNew k fp).1.nodeAt
          (g.findExistingNodePairOrCreateAndAddIfNew k fp).2.1 = some n ∧
      n.key = { k with aspect := .interface } := by
  unfold DepGraph.findExistingNodePairOrCreateAndAddIfNew
  obtain ⟨ext, hn, ha, n, hna, hk⟩ :=
    fc_spec g { k with aspect := .interface } fp true
  exact ⟨n, extends_nodeAt (fc_extends _ _ fp true) hna, hk⟩

/-! ## The whole-unit node pair -/

/-- Adding the whole-unit nodes to the empty graph yields exactly the
interface/implementation pair, both providers carrying the interface
fingerprint, and no arcs. -/
theorem addSourceFileNodes_empty_eq (sd fp : String) :
    addSourceFileNodesToGraph emptyGraph sd fp =
      ⟨[⟨sourceFileInterfaceKey sd, some fp, true⟩,
        ⟨sourceFileImplementationKey sd, some fp, true⟩], []⟩ := by
  simp [addSourceFileNodesToGraph, DepGraph.findExistingNodePairOrCreateAndAddIfNew,
        DepGraph.findExistingNodeOrCreateIfNew, DepGraph.findNodeIdx, findKeyIdx,
        emptyGraph, sourceFileInterfaceKey, sourceFileImplementationKey,
        DependencyKey.createKeyForWholeSourceFile]

theorem g0_find_interface (sd fp : String) :
    (addSourceFileNodesToGraph emptyGraph sd fp).findNodeIdx
      (sourceFileInterfaceKey sd) = some 0 := by
  rw [addSourceFileNodes_empty_eq]
  simp [DepGraph.findNodeIdx, findKeyIdx]

theorem g0_provider_interface (sd fp : String) :
    foundIsProvider (addSourceFileNodesToGraph emptyGraph sd fp)
      (sourceFileInterfaceKey sd) := by
  refine ⟨0, ⟨sourceFileInterfaceKey sd, some fp, true⟩, g0_find_interface sd fp,
    ?_, rfl⟩
  rw [addSourceFileNodes_empty_eq]
  simp [DepGraph.nodeAt]

theorem g0_provider_implementation (sd fp : String) :
    foundIsProvider (addSourceFileNodesToGraph emptyGraph sd fp)
      (sourceFileImplementationKey sd) := by
  refine ⟨1, ⟨sourceFileImplementationKey sd, some fp, true⟩, ?_, ?_, rfl⟩
  · rw [addSourceFileNodes_empty_eq]
    simp [DepGraph.findNodeIdx, findKeyIdx, sourceFileInterfaceKey,
          sourceFileImplementationKey, DependencyKey.createKeyForWholeSourceFile]
  · rw [addSourceFileNodes_empty_eq]
    simp [DepGraph.nodeAt]

theorem g0_bounded (sd fp : String) :
    arcsBounded (addSourceFileNodesToGraph emptyGraph sd fp) := by
  rw [addSourceFileNodes_empty_eq]
  intro a ha
  simp at ha

/-! ## The defined-declarations phase -/

theorem addDefinedDecl_extends (sd : String) (g : DepGraph) (k : DependencyKey)
    (fp : Option String) : g.Extends (addDefinedDecl sd g k fp) := by
  unfold addDefinedDecl
  exact extends_trans (pair_extends g k fp) (addArc_extends _ _ _)

/-- One `addDefinedDecl` step: the graph is extended, the whole-unit
interface node keeps its id, and an arc from that id to an interface node
for the registered key is recorded. -/
theorem addDefinedDecl_spec (sd : String) (g : DepGraph) (k : DependencyKey)
    (fp : Option String) (i0 : Nat)
    (hsf : g.findNodeIdx (sourceFileInterfaceKey sd) = some i0) :
    (addDefinedDecl sd g k fp).findNodeIdx (sourceFileInterfaceKey sd) = some i0 ∧
    ∃ j n, (addDefinedDecl sd g k fp).nodeAt j = some n ∧
      n.key = { k with aspect := .interface } ∧
      (i0, j) ∈ (addDefinedDecl sd g k fp).arcs := by
  have hext := pair_extends g k fp
  set r := g.findExistingNodePairOrCreateAndAddIfNew k fp with hr
  have hf1 : r.1.findNodeIdx (sourceFileInterfaceKey sd) = some i0 :=
    extends_findNodeIdx hext hsf
  obtain ⟨n, hn, hnk⟩ := pair_interface_node g k fp
  constructor
  · exact extends_findNodeIdx (addDefinedDecl_extends sd g k fp) hsf
  · refine ⟨r.2.1, n, ?_, hnk, ?_⟩
    · show (addDefinedDecl sd g k fp).nodeAt r.2.1 = some n
      unfold addDefinedDecl
      rw [← hr]
      exact extends_nodeAt (addArc_extends _ _ _) hn
    · show (i0, r.2.1) ∈ (addDefinedDecl sd g k fp).arcs
      unfold addDefinedDecl
      rw [← hr]
      simp [DepGraph.addArc, sourceFileInterfaceIdx, hf1]

theorem pair_arcs (g : DepGraph) (k : DependencyKey) (fp : Option String) :
    (g.findExistingNodePairOrCreateAndAddIfNew k fp).1.arcs = g.arcs := by
  unfold DepGraph.findExistingNodePairOrCreateAndAddIfNew
  obtain ⟨e1, hn1, ha1, -⟩ := fc_spec g { k with aspect := .interface } fp true
  obtain ⟨e2, hn2, ha2, -⟩ :=
    fc_spec (g.findExistingNodeOrCreateIfNew { k with aspect := .interface } fp true).1
      { k with aspect := .implementation } fp true
  simp only []
  rw [ha2, ha1]

theorem addDefinedDecl_bounded (sd : String) (g : DepGraph) (k : DependencyKey)
    (fp : Option String) (i0 : Nat)
    (hsf : g.findNodeIdx (sourceFileInterfaceKey sd) = some i0)
    (hb : arcsBounded g) : arcsBounded (addDefinedDecl sd g k fp) := by
  have hext := pair_extends g k fp
  set r := g.findExistingNodePairOrCreateAndAddIfNew k fp with hr
  have hf1 : r.1.findNodeIdx (sourceFileInterfaceKey sd) = some i0 :=
    extends_findNodeIdx hext hsf
  obtain ⟨n, hn, hnk⟩ := pair_interface_node g k fp
  obtain ⟨⟨en, hen⟩, -⟩ := hext
  have harcs : r.1.arcs = g.arcs := by rw [hr]; exact pair_arcs g k fp
  have hnodes_dd : (addDefinedDecl sd g k fp).nodes = r.1.nodes := by
    unfold addDefinedDecl
    rw [← hr]
    rfl
  have harcs_dd : (addDefinedDecl sd g k fp).arcs = g.arcs ++ [(i0, r.2.1)] := by
    unfold addDefinedDecl
    rw [← hr]
    simp [DepGraph.addArc, sourceFileInterfaceIdx, hf1, harcs]
  have hi0lt : i0 < r.1.nodes.length := findKeyIdx_lt _ _ _ hf1
  have hjlt : r.2.1 < r.1.nodes.length := (List.get?_eq_some.mp hn).1
  have hglen : g.nodes.length ≤ r.1.nodes.length := by simp [hen]
  intro a ha
  rw [harcs_dd] at ha
  rw [hnodes_dd]
  simp only [List.mem_append, List.mem_singleton] at ha
  rcases ha with ha | rfl
  · have h2 := hb a ha
    omega
  · exact ⟨hi0lt, hjlt⟩

/-- The whole defined-declarations fold: extension, stability of the
whole-unit interface id, boundedness, and one dominance arc per
registered declaration. -/
theorem addAllDefinedDecls_spec (sd : String)
    (defs : List (DependencyKey × Option String)) (g : DepGraph) (i0 : Nat)
    (hsf : g.findNodeIdx (sourceFileInterfaceKey sd) = some i0)
    (hb : arcsBounded g) :
    g.Extends (addAllDefinedDecls sd g defs) ∧
    (addAllDefinedDecls sd g defs).findNodeIdx (sourceFileInterfaceKey sd) =
      some i0 ∧
    arcsBounded (addAllDefinedDecls sd g defs) ∧
    ∀ p ∈ defs, ∃ j n, (addAllDefinedDecls sd g defs).nodeAt j = some n ∧
      n.key = { p.1 with aspect := DeclAspect.interface } ∧
      (i0, j) ∈ (addAllDefinedDecls sd g defs).arcs := by
  induction defs generalizing g with
  | nil =>
    refine ⟨extends_refl g, hsf, hb, ?_⟩
    intro p hp
    simp at hp
  | cons p ps ih =>
    have hstep := addDefinedDecl_spec sd g p.1 p.2 i0 hsf
    have hbstep := addDefinedDecl_bounded sd g p.1 p.2 i0 hsf hb
    obtain ⟨hsf1, j, n, hnat, hk, harc⟩ := hstep
    obtain ⟨hext2, hsf2, hb2, hrest⟩ := ih (addDefinedDecl sd g p.1 p.2) hsf1 hbstep
    have hfold : addAllDefinedDecls sd g (p :: ps) =
        addAllDefinedDecls sd (addDefinedDecl sd g p.1 p.2) ps := rfl
    rw [hfold]
    refine ⟨extends_trans (addDefinedDecl_extends sd g p.1 p.2) hext2, hsf2, hb2, ?_⟩
    intro q hq
    rw [List.mem_cons] at hq
    rcases hq with rfl | hq
    · exact ⟨j, n, extends_nodeAt hext2 hnat, hk, extends_arcMem hext2 harc⟩
    · exact hrest q hq

/-! ## The used-declarations phase -/

theorem findKeyIdx_singleton (k : DependencyKey) (x : DepNode) :
    findKeyIdx k [x] = if x.key = k then some 0 else none := by
  by_cases h : x.key = k <;> simp [findKeyIdx, h]

theorem findNodeIdx_none_iff (g : DepGraph) (k : DependencyKey) :
    g.findNodeIdx k = none ↔ k ∉ nodeKeys g := by
  rw [DepGraph.findNodeIdx, findKeyIdx_eq_none_iff]
  simp [nodeKeys]

/-- Complete description of one successful `addAllUsedDecls` step: the
using key resolved to an existing provider node, the used key was
found-or-created as a fingerprintless non-provider, and exactly the one
arc between them was appended. -/
theorem addUsedDecl_spec (g : DepGraph) (p : DependencyKey × DependencyKey)
    (g' : DepGraph) (h : addUsedDecl g p = some g') :
    foundIsProvider g p.2 ∧
    (((g.findNodeIdx p.1).isSome ∧ g'.nodes = g.nodes) ∨
      (g.findNodeIdx p.1 = none ∧ g'.nodes = g.nodes ++ [⟨p.1, none, false⟩])) ∧
    ∃ di ui, g'.arcs = g.arcs ++ [(di, ui)] ∧
      (∃ dn, g'.nodeAt di = some dn ∧ dn.key = p.1) ∧
      (∃ un, g'.nodeAt ui = some un ∧ un.key = p.2) ∧
      di < g'.nodes.length ∧ ui < g'.nodes.length := by
  cases hfc : g.findNodeIdx p.1 with
  | some i =>
    have h0 : (match g.findNodeIdx p.2 with
        | none => none
        | some useIdx =>
          match g.nodeAt useIdx with
          | none => none
          | some useNode =>
            if useNode.isProvides = true then some (g.addArc i useIdx)
            else none) = some g' := by
      rw [← h, addUsedDecl, fc_of_found g p.1 none false i hfc]
    cases hf2 : g.findNodeIdx p.2 with
    | none => rw [hf2] at h0; exact absurd h0 (by simp)
    | some u =>
      rw [hf2] at h0
      have h1 : (match g.nodeAt u with
          | none => none
          | some useNode =>
            if useNode.isProvides = true then some (g.addArc i u)
            else none) = some g' := h0
      cases hna : g.nodeAt u with
      | none => rw [hna] at h1; exact absurd h1 (by simp)
      | some un =>
        rw [hna] at h1
        have h2 : (if un.isProvides = true then some (g.addArc i u) else none) =
            some g' := h1
        by_cases hpr : un.isProvides
        · rw [if_pos hpr] at h2
          obtain rfl : g.addArc i u = g' := by simpa using h2
          obtain ⟨dn, hdn, hdk⟩ := findKeyIdx_some p.1 g.nodes i hfc
          refine ⟨⟨u, un, hf2, hna, hpr⟩, Or.inl ⟨by simp, rfl⟩,
            i, u, rfl, ⟨dn, hdn, hdk⟩, ⟨un, hna, ?_⟩,
            findKeyIdx_lt _ _ _ hfc, findKeyIdx_lt _ _ _ hf2⟩
          obtain ⟨m, hm, hmk⟩ := findKeyIdx_some p.2 g.nodes u hf2
          have hm2 : g.nodeAt u = some m := hm
          rw [hna] at hm2
          injection hm2 with hinj
          rw [hinj]
          exact hmk
        · rw [if_neg hpr] at h2
          exact absurd h2 (by simp)
  | none =>
    set g1 : DepGraph := { g with nodes := g.nodes ++ [⟨p.1, none, false⟩] }
      with hg1
    have hext1 : g.Extends g1 :=
      ⟨⟨[⟨p.1, none, false⟩], rfl⟩, ⟨[], by simp [hg1]⟩⟩
    have h0 : (match g1.findNodeIdx p.2 with
        | none => none
        | some useIdx =>
          match g1.nodeAt useIdx with
          | none => none
          | some useNode =>
            if useNode.isProvides = true then
              some (g1.addArc g.nodes.length useIdx)
            else none) = some g' := by
      rw [← h, addUsedDecl, fc_of_new g p.1 none false hfc]
    cases hf2 : g1.findNodeIdx p.2 with
    | none => rw [hf2] at h0; exact absurd h0 (by simp)
    | some u =>
      rw [hf2] at h0
      have h1 : (match g1.nodeAt u with
          | none => none
          | some useNode =>
            if useNode.isProvides = true then
              some (g1.addArc g.nodes.length u)
            else none) = some g' := h0
      cases hna : g1.nodeAt u with
      | none => rw [hna] at h1; exact absurd h1 (by simp)
      | some un =>
        rw [hna] at h1
        have h2 : (if un.isProvides = true then
            some (g1.addArc g.nodes.length u) else none) = some g' := h1
        by_cases hpr : un.isProvides
        · rw [if_pos hpr] at h2
          obtain rfl : g1.addArc g.nodes.length u = g' := by simpa using h2
          have hprov : foundIsProvider g p.2 := by
            cases hf2g : g.findNodeIdx p.2 with
            | some j =>
              have hj : g1.findNodeIdx p.2 = some j := extends_findNodeIdx hext1 hf2g
              rw [hf2] at hj
              injection hj with hj2
              subst hj2
              obtain ⟨m, hm, hmk⟩ := findKeyIdx_some p.2 g.nodes u hf2g
              have hm0 : g.nodeAt u = some m := hm
              have hm1 : g1.nodeAt u = some m := extends_nodeAt hext1 hm0
              rw [hna] at hm1
              injection hm1 with hinj
              exact ⟨u, m, hf2g, hm0, hinj ▸ hpr⟩
            | none =>
              exfalso
              have happ :=
                findKeyIdx_append_of_none p.2 g.nodes [⟨p.1, none, false⟩] hf2g
              rw [show g1.findNodeIdx p.2 =
                    findKeyIdx p.2 (g.nodes ++ [⟨p.1, none, false⟩]) from rfl,
                  happ] at hf2
              rw [findKeyIdx_singleton] at hf2
              by_cases hxk : (⟨p.1, none, false⟩ : DepNode).key = p.2
              · rw [if_pos hxk] at hf2
                simp at hf2
                subst hf2
                have hnau : g1.nodeAt g.nodes.length = some ⟨p.1, none, false⟩ :=
                  List.get?_concat_length _ _
                rw [hna] at hnau
                injection hnau with hinj
                rw [hinj] at hpr
                simp at hpr
              · rw [if_neg hxk] at hf2
                simp at hf2
          have hdk : (⟨p.1, none, false⟩ : DepNode).key = p.1 := rfl
          have hdnat : g1.nodeAt g.nodes.length = some ⟨p.1, none, false⟩ :=
            List.get?_concat_length _ _
          have hulen : u < g1.nodes.length := findKeyIdx_lt _ _ _ hf2
          obtain ⟨m, hm, hmk⟩ := findKeyIdx_some p.2 g1.nodes u hf2
          have hm0 : g1.nodeAt u = some m := hm
          rw [hna] at hm0
          injection hm0 with hinj
          refine ⟨hprov, Or.inr ⟨rfl, rfl⟩,
            g.nodes.length, u, rfl, ⟨⟨p.1, none, false⟩, hdnat, hdk⟩,
            ⟨un, hna, by rw [hinj]; exact hmk⟩, ?_, ?_⟩
          · simp [hg1, DepGraph.addArc]
          · exact hulen
        · rw [if_neg hpr] at h2
          exact absurd h2 (by simp)

/-- A provider target makes the step succeed. -/
theorem addUsedDecl_isSome (g : DepGraph) (p : DependencyKey × DependencyKey)
    (hprov : foundIsProvider g p.2) : ∃ g', addUsedDecl g p = some g' := by
  obtain ⟨u, un, hf2, hna, hpr⟩ := hprov
  cases hfc : g.findNodeIdx p.1 with
  | some i =>
    refine ⟨g.addArc i u, ?_⟩
    have h0 : addUsedDecl g p = (match g.findNodeIdx p.2 with
        | none => none
        | some useIdx =>
          match g.nodeAt useIdx with
          | none => none
          | some useNode =>
            if useNode.isProvides = true then some (g.addArc i useIdx)
            else none) := by
      rw [addUsedDecl, fc_of_found g p.1 none false i hfc]
    rw [h0, hf2]
    show (match g.nodeAt u with
        | none => none
        | some useNode =>
          if useNode.isProvides = true then some (g.addArc i u)
          else none) = some (g.addArc i u)
    rw [hna]
    show (if un.isProvides = true then some (g.addArc i u) else none) =
      some (g.addArc i u)
    rw [if_pos hpr]
  | none =>
    set g1 : DepGraph := { g with nodes := g.nodes ++ [⟨p.1, none, false⟩] }
      with hg1
    have hext1 : g.Extends g1 :=
      ⟨⟨[⟨p.1, none, false⟩], rfl⟩, ⟨[], by simp [hg1]⟩⟩
    refine ⟨g1.addArc g.nodes.length u, ?_⟩
    have h0 : addUsedDecl g p = (match g1.findNodeIdx p.2 with
        | none => none
        | some useIdx =>
          match g1.nodeAt useIdx with
          | none => none
          | some useNode =>
            if useNode.isProvides = true then
              some (g1.addArc g.nodes.length useIdx)
            else none) := by
      rw [addUsedDecl, fc_of_new g p.1 none false hfc]
    rw [h0, extends_findNodeIdx hext1 hf2]
    show (match g1.nodeAt u with
        | none => none
        | some useNode =>
          if useNode.isProvides = true then
            some (g1.addArc g.nodes.length u)
          else none) = some (g1.addArc g.nodes.length u)
    rw [extends_nodeAt hext1 hna]
    show (if un.isProvides = true then
        some (g1.addArc g.nodes.length u) else none) =
      some (g1.addArc g.nodes.length u)
    rw [if_pos hpr]

/-! ## View-level description of the used-declarations phase -/

theorem filterMap_congr_mem {α β : Type} (l : List α) (f f' : α → Option β)
    (h : ∀ a ∈ l, f a = f' a) : l.filterMap f = l.filterMap f' := by
  induction l with
  | nil => rfl
  | cons a as ih =>
    rw [List.filterMap_cons, List.filterMap_cons, h a (by simp),
      ih (fun b hb => h b (by simp [hb]))]

theorem nodeByKey_congr_nodes {g g' : DepGraph} (h : g'.nodes = g.nodes)
    (k : DependencyKey) : nodeByKey g' k = nodeByKey g k := by
  unfold nodeByKey DepGraph.findNodeIdx DepGraph.nodeAt
  rw [h]

theorem nodeAt_extends_lt {g g' : DepGraph} {en : List DepNode}
    (hen : g'.nodes = g.nodes ++ en) {i : Nat} (hi : i < g.nodes.length) :
    g'.nodeAt i = g.nodeAt i := by
  simp only [DepGraph.nodeAt, hen]
  exact List.get?_append hi

theorem mem_nodeKeys_of_find {g : DepGraph} {k : DependencyKey} {i : Nat}
    (h : g.findNodeIdx k = some i) : k ∈ nodeKeys g := by
  obtain ⟨n, hn, hk⟩ := findKeyIdx_some k g.nodes i h
  exact hk ▸ List.mem_map_of_mem DepNode.key (List.get?_mem hn)

theorem findKeyIdx_concat_self (k : DependencyKey) (l : List DepNode)
    (x : DepNode) (h : findKeyIdx k l = none) (hx : x.key = k) :
    findKeyIdx k (l ++ [x]) = some l.length := by
  rw [findKeyIdx_append_of_none k l [x] h, findKeyIdx_singleton, if_pos hx]
  simp

theorem findKeyIdx_concat_other (k : DependencyKey) (l : List DepNode)
    (x : DepNode) (h : findKeyIdx k l = none) (hx : x.key ≠ k) :
    findKeyIdx k (l ++ [x]) = none := by
  rw [findKeyIdx_append_of_none k l [x] h, findKeyIdx_singleton, if_neg hx]
  simp

theorem arcEndpointKeys_step {g g' : DepGraph} (hb : arcsBounded g)
    (hnodes : ∃ en, g'.nodes = g.nodes ++ en) (di ui : Nat)
    (harcs : g'.arcs = g.arcs ++ [(di, ui)]) {dn un : DepNode}
    (hdn : g'.nodeAt di = some dn) (hun : g'.nodeAt ui = some un) :
    arcEndpointKeys g' = arcEndpointKeys g ++ [(dn.key, un.key)] := by
  obtain ⟨en, hen⟩ := hnodes
  unfold arcEndpointKeys
  rw [harcs, List.filterMap_append]
  congr 1
  · apply filterMap_congr_mem
    intro a ha
    obtain ⟨h1, h2⟩ := hb a ha
    rw [nodeAt_extends_lt hen h1, nodeAt_extends_lt hen h2]
  · simp [hdn, hun]

/-- View-level description of one successful step. -/
theorem addUsedDecl_views (g : DepGraph) (p : DependencyKey × DependencyKey)
    (g' : DepGraph) (h : addUsedDecl g p = some g') (hb : arcsBounded g) :
    g.Extends g' ∧ arcsBounded g' ∧
    (∀ k, k ∈ nodeKeys g' ↔ k ∈ nodeKeys g ∨ k = p.1) ∧
    (∀ k, k ∈ nodeKeys g → nodeByKey g' k = nodeByKey g k) ∧
    (∀ k, k ∉ nodeKeys g → k = p.1 → nodeByKey g' k = some ⟨p.1, none, false⟩) ∧
    (∀ k, k ∉ nodeKeys g → k ≠ p.1 → nodeByKey g' k = none) ∧
    arcEndpointKeys g' = arcEndpointKeys g ++ [(p.1, p.2)] := by
  obtain ⟨hprov, hcases, di, ui, harcs, ⟨dn, hdn, hdnk⟩, ⟨un, hun, hunk⟩, hdl, hul⟩ :=
    addUsedDecl_spec g p g' h
  have harcKeys : arcEndpointKeys g' = arcEndpointKeys g ++ [(p.1, p.2)] := by
    have hnodes : ∃ en, g'.nodes = g.nodes ++ en := by
      rcases hcases with ⟨-, hn⟩ | ⟨-, hn⟩
      · exact ⟨[], by simp [hn]⟩
      · exact ⟨[⟨p.1, none, false⟩], hn⟩
    have := arcEndpointKeys_step hb hnodes di ui harcs hdn hun
    rw [this, hdnk, hunk]
  rcases hcases with ⟨hfsome, hn⟩ | ⟨hfnone, hn⟩
  · -- the used key already had a node
    have hp1mem : p.1 ∈ nodeKeys g := by
      cases hf : g.findNodeIdx p.1 with
      | none => rw [hf] at hfsome; exact absurd hfsome (by simp)
      | some i => exact mem_nodeKeys_of_find hf
    have hext : g.Extends g' := ⟨⟨[], by simp [hn]⟩, ⟨[(di, ui)], harcs⟩⟩
    refine ⟨hext, ?_, ?_, ?_, ?_, ?_, harcKeys⟩
    · intro a ha
      rw [harcs] at ha
      rw [hn]
      simp only [List.mem_append, List.mem_singleton] at ha
      rcases ha with ha | rfl
      · have := hb a ha
        omega
      · rw [hn] at hdl hul
        exact ⟨hdl, hul⟩
    · intro k
      rw [show nodeKeys g' = nodeKeys g by rw [nodeKeys, nodeKeys, hn]]
      constructor
      · exact Or.inl
      · rintro (hk | rfl)
        · exact hk
        · exact hp1mem
    · intro k _
      exact nodeByKey_congr_nodes hn k
    · intro k hk hkp
      exact absurd (hkp ▸ hp1mem) hk
    · intro k hk _
      rw [nodeByKey_congr_nodes hn k]
      unfold nodeByKey
      rw [(findNodeIdx_none_iff g k).mpr hk]
      rfl
  · -- a fresh non-provider node was created for the used key
    have hp1notmem : p.1 ∉ nodeKeys g := (findNodeIdx_none_iff g p.1).mp hfnone
    have hext : g.Extends g' := ⟨⟨[⟨p.1, none, false⟩], hn⟩, ⟨[(di, ui)], harcs⟩⟩
    refine ⟨hext, ?_, ?_, ?_, ?_, ?_, harcKeys⟩
    · intro a ha
      rw [harcs] at ha
      simp only [List.mem_append, List.mem_singleton] at ha
      rcases ha with ha | rfl
      · have h2 := hb a ha
        have : g.nodes.length ≤ g'.nodes.length := by simp [hn]
        omega
      · exact ⟨hdl, hul⟩
    · intro k
      rw [nodeKeys, nodeKeys, hn]
      simp [DepNode.key]
    · intro k hk
      cases hf : g.findNodeIdx k with
      | none => exact absurd hk ((findNodeIdx_none_iff g k).mp hf)
      | some i =>
        unfold nodeByKey
        rw [extends_findNodeIdx hext hf, hf]
        simp only [Option.some_bind]
        exact nodeAt_extends_lt hn (findKeyIdx_lt _ _ _ hf)
    · intro k hk hkp
      rw [hkp] at hk ⊢
      unfold nodeByKey
      have hfind : g'.findNodeIdx p.1 = some g.nodes.length := by
        show findKeyIdx p.1 g'.nodes = _
        rw [hn]
        exact findKeyIdx_concat_self p.1 g.nodes _ hfnone rfl
      rw [hfind]
      simp only [Option.some_bind]
      show g'.nodes.get? g.nodes.length = some ⟨p.1, none, false⟩
      rw [hn]
      exact List.get?_concat_length _ _
    · intro k hk hkp
      unfold nodeByKey
      have hfind : g'.findNodeIdx k = none := by
        show findKeyIdx k g'.nodes = none
        rw [hn]
        exact findKeyIdx_concat_other k g.nodes _
          ((findNodeIdx_none_iff g k).mpr hk) (fun hc => hkp hc.symm)
      rw [hfind]
      rfl

/-- The whole used-declarations fold: it succeeds when every using key
resolves to a provider, the nodes it adds are exactly fingerprintless
non-provider nodes for the fresh used keys, existing nodes are untouched,
and the arcs it appends are exactly the (used, using) key pairs. -/
theorem addAllUsedDecls_spec (uses : List (DependencyKey × DependencyKey))
    (g : DepGraph) (hb : arcsBounded g)
    (hprov : ∀ p ∈ uses, foundIsProvider g p.2) :
    ∃ g', addAllUsedDecls g uses = some g' ∧ g.Extends g' ∧ arcsBounded g' ∧
      (∀ k, k ∈ nodeKeys g' ↔ k ∈ nodeKeys g ∨ k ∈ uses.map Prod.fst) ∧
      (∀ k, k ∈ nodeKeys g → nodeByKey g' k = nodeByKey g k) ∧
      (∀ k, k ∉ nodeKeys g → k ∈ uses.map Prod.fst →
        nodeByKey g' k = some ⟨k, none, false⟩) ∧
      (∀ k, k ∉ nodeKeys g → k ∉ uses.map Prod.fst → nodeByKey g' k = none) ∧
      arcEndpointKeys g' = arcEndpointKeys g ++ uses := by
  induction uses generalizing g with
  | nil =>
    refine ⟨g, rfl, extends_refl g, hb, ?_, ?_, ?_, ?_, by simp⟩
    · intro k; simp
    · intro k _; rfl
    · intro k _ hk; simp at hk
    · intro k hk _
      unfold nodeByKey
      rw [(findNodeIdx_none_iff g k).mpr hk]
      rfl
  | cons p ps ih =>
    obtain ⟨g1, hg1⟩ := addUsedDecl_isSome g p (hprov p (by simp))
    obtain ⟨hext1, hb1, hkeys1, hstable1, hnew1, hnone1, harc1⟩ :=
      addUsedDecl_views g p g1 hg1 hb
    obtain ⟨g2, hg2, hext2, hb2, hkeys2, hstable2, hnew2, hnone2, harc2⟩ :=
      ih g1 hb1 (fun q hq => extends_foundIsProvider hext1 (hprov q (by simp [hq])))
    have hfold : addAllUsedDecls g (p :: ps) = some g2 := by
      rw [addAllUsedDecls, List.foldlM_cons, hg1]
      exact hg2
    refine ⟨g2, hfold, extends_trans hext1 hext2, hb2, ?_, ?_, ?_, ?_, ?_⟩
    · intro k
      rw [hkeys2 k, hkeys1 k]
      simp only [List.map_cons, List.mem_cons]
      tauto
    · intro k hk
      rw [hstable2 k ((hkeys1 k).mpr (Or.inl hk)), hstable1 k hk]
    · intro k hk hkmem
      simp only [List.map_cons, List.mem_cons] at hkmem
      by_cases hk1 : k ∈ nodeKeys g1
      · have hkp : k = p.1 := by
          rcases (hkeys1 k).mp hk1 with h1 | h1
          · exact absurd h1 hk
          · exact h1
        rw [hstable2 k hk1, hkp]
        exact hnew1 p.1 (hkp ▸ hk) rfl
      · rcases hkmem with hkp | hkmem
        · exact absurd ((hkeys1 k).mpr (Or.inr hkp)) hk1
        · exact hnew2 k hk1 (by simpa using hkmem)
    · intro k hk hkmem
      simp only [List.map_cons, List.mem_cons] at hkmem
      push_neg at hkmem
      have hk1 : k ∉ nodeKeys g1 := by
        intro hc
        rcases (hkeys1 k).mp hc with h1 | h1
        · exact hk h1
        · exact hkmem.1 h1
      exact hnone2 k hk1 (by simpa using hkmem.2)
    · rw [harc2, harc1]
      simp

theorem construct_false_eq (sd fp : String)
    (defs : List (DependencyKey × Option String))
    (uses : List (DependencyKey × DependencyKey)) :
    construct false sd fp defs uses =
      addAllUsedDecls
        (addAllDefinedDecls sd (addSourceFileNodesToGraph emptyGraph sd fp) defs)
        uses := by
  simp [construct]

theorem addAllUsedDecls_extends (uses : List (DependencyKey × DependencyKey))
    (g g' : DepGraph) (h : addAllUsedDecls g uses = some g') : g.Extends g' := by
  induction uses generalizing g with
  | nil =>
    obtain rfl : g = g' := by simpa [addAllUsedDecls] using h
    exact extends_refl g
  | cons p ps ih =>
    rw [addAllUsedDecls, List.foldlM_cons] at h
    cases hstep : addUsedDecl g p with
    | none => rw [hstep] at h; exact absurd h (by simp)
    | some g1 =>
      rw [hstep] at h
      obtain ⟨-, hcases, di, ui, harcs, -, -, -, -⟩ :=
        addUsedDecl_spec g p g1 hstep
      have hext1 : g.Extends g1 := by
        rcases hcases with ⟨-, hn⟩ | ⟨-, hn⟩
        · exact ⟨⟨[], by simp [hn]⟩, ⟨[(di, ui)], harcs⟩⟩
        · exact ⟨⟨[⟨p.1, none, false⟩], hn⟩, ⟨[(di, ui)], harcs⟩⟩
      exact extends_trans hext1 (ih g1 h)

/-! ## Claim theorems: construction -/

/-- C1: when the unit had a compilation error, construction emits only the
whole-unit node pair carrying the interface fingerprint: for every
declaration stream and use stream, the graph holds exactly the two
whole-unit nodes and zero arcs, because `doTheRest` is skipped. -/
theorem sourceFileDepGraph_error_graph_is_sourcefile_pair_only (sd fp : String)
    (defs : List (DependencyKey × Option String))
    (uses : List (DependencyKey × DependencyKey)) :
    construct true sd fp defs uses =
      some ⟨[⟨sourceFileInterfaceKey sd, some fp, true⟩,
             ⟨sourceFileImplementationKey sd, some fp, true⟩], []⟩ := by
  simp [construct, addSourceFileNodes_empty_eq]

/-- C2: in `addAllUsedDecls`, the used ("from") key is found-or-created
with no fingerprint and `isProvides = false` (an existing node is left
untouched), while the using ("to") key must already exist in the graph as
a provider node; a missing or non-provider "to" key is the fatal
assertion, modelled as `none` — the step succeeds exactly when the "to"
key resolves to a provider. -/
theorem addAllUsedDecls_use_contract (g : DepGraph) (d u : DependencyKey) :
    ((addUsedDecl g (d, u)).isSome = true ↔ foundIsProvider g u) ∧
    (∀ g', addUsedDecl g (d, u) = some g' →
      (d ∉ nodeKeys g → g'.nodes = g.nodes ++ [⟨d, none, false⟩]) ∧
      (d ∈ nodeKeys g → g'.nodes = g.nodes)) := by
  constructor
  · constructor
    · intro hsome
      cases hstep : addUsedDecl g (d, u) with
      | none => rw [hstep] at hsome; simp at hsome
      | some g' => exact (addUsedDecl_spec g (d, u) g' hstep).1
    · intro hprov
      obtain ⟨g', hg'⟩ := addUsedDecl_isSome g (d, u) hprov
      rw [hg']
      rfl
  · intro g' hstep
    obtain ⟨-, hcases, -⟩ := addUsedDecl_spec g (d, u) g' hstep
    rcases hcases with ⟨hfsome, hn⟩ | ⟨hfnone, hn⟩
    · have hmem : d ∈ nodeKeys g := by
        cases hf : g.findNodeIdx (d, u).1 with
        | none => rw [hf] at hfsome; exact absurd hfsome (by simp)
        | some i => exact mem_nodeKeys_of_find hf
      exact ⟨fun hd => absurd hmem hd, fun _ => hn⟩
    · have hnotmem : d ∉ nodeKeys g := (findNodeIdx_none_iff g _).mp hfnone
      exact ⟨fun _ => hn, fun hd => absurd hd hnotmem⟩

/-- Witness for C2 at a concrete graph: a provider node for the "to" key
makes the step succeed. -/
theorem addAllUsedDecls_use_contract_witness :
    (addUsedDecl
      ⟨[⟨sourceFileInterfaceKey "a.swiftdeps", some "h1", true⟩], []⟩
      (keyForTopLevelName "g", sourceFileInterfaceKey "a.swiftdeps")).isSome =
      true :=
  (addAllUsedDecls_use_contract
    ⟨[⟨sourceFileInterfaceKey "a.swiftdeps", some "h1", true⟩], []⟩
    (keyForTopLevelName "g") (sourceFileInterfaceKey "a.swiftdeps")).1.mpr
    ⟨0, ⟨sourceFileInterfaceKey "a.swiftdeps", some "h1", true⟩, rfl, rfl, rfl⟩

/-- C4: every declaration registered through `addDefinedDecl` gets an arc
from the whole-unit interface node (id 0, carrying the whole-unit
interface key) to an interface node carrying that declaration's key. -/
theorem every_defined_decl_dominated_by_sourcefile (sd fp : String)
    (defs : List (DependencyKey × Option String))
    (uses : List (DependencyKey × DependencyKey)) (g : DepGraph)
    (h : construct false sd fp defs uses = some g) :
    ∃ n0, g.nodeAt 0 = some n0 ∧ n0.key = sourceFileInterfaceKey sd ∧
      ∀ p ∈ defs, ∃ j n, g.nodeAt j = some n ∧
        n.key = { p.1 with aspect := DeclAspect.interface } ∧
        (0, j) ∈ g.arcs := by
  rw [construct_false_eq] at h
  set g0 := addSourceFileNodesToGraph emptyGraph sd fp with hg0
  obtain ⟨hext1, hsf1, hb1, harcs1⟩ :=
    addAllDefinedDecls_spec sd defs g0 0 (g0_find_interface sd fp)
      (g0_bounded sd fp)
  have hext2 := addAllUsedDecls_extends uses _ g h
  have hnode0 : g0.nodeAt 0 =
      some ⟨sourceFileInterfaceKey sd, some fp, true⟩ := by
    rw [hg0, addSourceFileNodes_empty_eq]
    rfl
  refine ⟨⟨sourceFileInterfaceKey sd, some fp, true⟩,
    extends_nodeAt hext2 (extends_nodeAt hext1 hnode0), rfl, ?_⟩
  intro p hp
  obtain ⟨j, n, hnat, hk, harc⟩ := harcs1 p hp
  exact ⟨j, n, extends_nodeAt hext2 hnat, hk, extends_arcMem hext2 harc⟩

/-- Witness for C4 at a concrete construction. -/
theorem every_defined_decl_dominated_by_sourcefile_witness :
    ∃ n0, (⟨[⟨sourceFileInterfaceKey "a.swiftdeps", some "h1", true⟩,
              ⟨sourceFileImplementationKey "a.swiftdeps", some "h1", true⟩,
              ⟨keyForTopLevelName "f", none, true⟩,
              ⟨{ keyForTopLevelName "f" with
                  aspect := DeclAspect.implementation }, none, true⟩],
            [(0, 2)]⟩ : DepGraph).nodeAt 0 = some n0 ∧
      n0.key = sourceFileInterfaceKey "a.swiftdeps" ∧
      ∀ p ∈ [((keyForTopLevelName "f" : DependencyKey),
              (none : Option String))],
        ∃ j n, (⟨[⟨sourceFileInterfaceKey "a.swiftdeps", some "h1", true⟩,
                   ⟨sourceFileImplementationKey "a.swiftdeps", some "h1", true⟩,
                   ⟨keyForTopLevelName "f", none, true⟩,
                   ⟨{ keyForTopLevelName "f" with
                       aspect := DeclAspect.implementation }, none, true⟩],
                 [(0, 2)]⟩ : DepGraph).nodeAt j = some n ∧
          n.key = { p.1 with aspect := DeclAspect.interface } ∧
          (0, j) ∈ (⟨[⟨sourceFileInterfaceKey "a.swiftdeps", some "h1", true⟩,
                       ⟨sourceFileImplementationKey "a.swiftdeps", some "h1", true⟩,
                       ⟨keyForTopLevelName "f", none, true⟩,
                       ⟨{ keyForTopLevelName "f" with
                           aspect := DeclAspect.implementation }, none, true⟩],
                     [(0, 2)]⟩ : DepGraph).arcs :=
  every_defined_decl_dominated_by_sourcefile "a.swiftdeps" "h1"
    [(keyForTopLevelName "f", none)] [] _ (by decide)

/-! ## Lemmas about the use enumerator -/

/-- Every use edge's target is one of the two whole-file keys. -/
theorem enumerateUse_target (sd : String) (k : NodeKind) (ctx n : String)
    (c : Bool) :
    (enumerateUse sd k ctx n c).2 = sourceFileInterfaceKey sd ∨
      (enumerateUse sd k ctx n c).2 = sourceFileImplementationKey sd := by
  cases c
  · exact Or.inr rfl
  · exact Or.inl rfl

theorem allUses_target_cases (sd : String) (intra : Bool)
    (sf : SourceFileModel) :
    ∀ e ∈ enumerateAllUses sd intra sf,
      e.2 = sourceFileInterfaceKey sd ∨
      e.2 = sourceFileImplementationKey sd := by
  intro e he
  rw [enumerateAllUses] at he
  simp only [List.mem_append] at he
  rcases he with ((he | he) | he) | he | he
  · obtain ⟨p, -, rfl⟩ := List.mem_map.mp he
    exact enumerateUse_target sd _ _ _ _
  · obtain ⟨p, -, rfl⟩ := List.mem_map.mp he
    exact enumerateUse_target sd _ _ _ _
  · obtain ⟨s, -, rfl⟩ := List.mem_map.mp he
    exact enumerateUse_target sd _ _ _ _
  · obtain ⟨a, -, hsome⟩ := List.mem_filterMap.mp he
    by_cases hc : declIsPrivate a.1 && !intra
    · rw [if_pos hc] at hsome
      exact absurd hsome (by simp)
    · rw [if_neg hc] at hsome
      obtain rfl : _ = e := Option.some.inj hsome
      exact enumerateUse_target sd _ _ _ _
  · obtain ⟨a, -, rfl⟩ := List.mem_map.mp he
    by_cases hc : a.2.1.isEmpty
    · rw [if_pos hc]
      exact enumerateUse_target sd _ _ _ _
    · rw [if_neg hc]
      exact enumerateUse_target sd _ _ _ _

/-! ## Claim theorems: use enumeration -/

/-- C8: for every entry of the used-members map, exactly one additional
edge keyed on the holder's mangled context is emitted besides the nominal
edge: the key is exactly `createDependedUponKey` applied to the holder
context and the raw member name — member kind carrying the name when the
name is non-empty, potentialMember kind with empty name otherwise — and
the edge carries the entry's own cascade flag as its target choice. -/
theorem member_use_edges_are_createDependedUponKey (sd : String)
    (um : List (Decl × String × Bool)) :
    enumerateMemberUses sd um =
      um.map (fun e =>
        (DependencyKey.createDependedUponKey (mangleTypeAsContext (some e.1))
            e.2.1,
         if e.2.2 then sourceFileInterfaceKey sd
         else sourceFileImplementationKey sd)) ∧
    (enumerateMemberUses sd um).length = um.length := by
  constructor
  · rw [enumerateMemberUses]
    apply List.map_congr_left
    intro e _
    by_cases hc : e.2.1.isEmpty
    · simp [hc, enumerateUse, DependencyKey.createDependedUponKey]
    · simp [hc, enumerateUse, DependencyKey.createDependedUponKey]
  · simp [enumerateMemberUses]

/-- C7: every use edge targets the unit's interface node when the use
cascades and the implementation node otherwise, and never any other node;
each external dependency entry yields exactly one always-cascading
externalDepend-kind edge. -/
theorem use_edges_target_sourcefile_nodes (sd : String) (intra : Bool)
    (sf : SourceFileModel) :
    (∀ e ∈ enumerateAllUses sd intra sf,
      e.2 = sourceFileInterfaceKey sd ∨
      e.2 = sourceFileImplementationKey sd) ∧
    (∀ k ctx n c, (enumerateUse sd k ctx n c).2 =
      if c then sourceFileInterfaceKey sd
      else sourceFileImplementationKey sd) ∧
    (enumerateExternalUses sd sf.externalDependencies =
      sf.externalDependencies.map (fun s =>
        (⟨.externalDepend, .interface, "", s⟩, sourceFileInterfaceKey sd))) ∧
    ((enumerateAllUses sd intra sf).countP
        (fun e => e.1.kind == NodeKind.externalDepend) =
      sf.externalDependencies.length) := by
  refine ⟨allUses_target_cases sd intra sf, ?_, ?_, ?_⟩
  · intro k ctx n c
    cases c <;> rfl
  · rfl
  · rw [enumerateAllUses]
    rw [List.countP_append, List.countP_append, List.countP_append]
    have hsimple : ∀ (kk : NodeKind) (l : List (String × Bool)),
        kk ≠ NodeKind.externalDepend →
        (enumerateSimpleUses kk sd l).countP
          (fun e => e.1.kind == NodeKind.externalDepend) = 0 := by
      intro kk l hkk
      rw [List.countP_eq_zero]
      intro e he
      obtain ⟨p, -, rfl⟩ := List.mem_map.mp he
      simpa [enumerateUse] using hkk
    have hext : (enumerateExternalUses sd sf.externalDependencies).countP
        (fun e => e.1.kind == NodeKind.externalDepend) =
        sf.externalDependencies.length := by
      rw [enumerateExternalUses, List.countP_map]
      rw [show sf.externalDependencies.length =
            (sf.externalDependencies.length : Nat) from rfl]
      rw [List.countP_eq_length]
      intro s _
      simp [enumerateUse, Function.comp]
    have hnom : (enumerateNominalUses sd intra sf.usedMembers).countP
        (fun e => e.1.kind == NodeKind.externalDepend) = 0 := by
      rw [List.countP_eq_zero]
      intro e he
      obtain ⟨a, -, hsome⟩ := List.mem_filterMap.mp he
      by_cases hc : declIsPrivate a.1 && !intra
      · rw [if_pos hc] at hsome
        exact absurd hsome (by simp)
      · rw [if_neg hc] at hsome
        obtain rfl : _ = e := Option.some.inj hsome
        simp [enumerateUse]
    have hmem : (enumerateMemberUses sd sf.usedMembers).countP
        (fun e => e.1.kind == NodeKind.externalDepend) = 0 := by
      rw [List.countP_eq_zero]
      intro e he
      obtain ⟨a, -, rfl⟩ := List.mem_map.mp he
      by_cases hc : a.2.1.isEmpty
      · rw [if_pos hc]; simp [enumerateUse]
      · rw [if_neg hc]; simp [enumerateUse]
    rw [List.countP_append, hsimple .topLevel _ (by simp),
      hsimple .dynamicLookup _ (by simp), hext, hnom, hmem]
    omega

/-- Witness for C7 on a concrete unit: a non-cascading top-level use
targets one of the two whole-file keys. -/
theorem use_edges_target_sourcefile_nodes_witness :
    ((⟨.topLevel, .interface, "", "g"⟩, sourceFileImplementationKey "out") :
        DependencyKey × DependencyKey).2 = sourceFileInterfaceKey "out" ∨
    ((⟨.topLevel, .interface, "", "g"⟩, sourceFileImplementationKey "out") :
        DependencyKey × DependencyKey).2 =
      sourceFileImplementationKey "out" :=
  (use_edges_target_sourcefile_nodes "out" false
    ⟨[], [], "h", [("g", false)], [], [], ["libX"]⟩).1
    (⟨.topLevel, .interface, "", "g"⟩, sourceFileImplementationKey "out")
    (by decide)

/-! ## The two-pass nominal cascade computation -/

theorem priv_skip_iff (d : Decl) (intra : Bool) :
    (declIsPrivate d && !intra) = true ↔
      (declIsPrivate d = true ∧ intra = false) := by
  cases declIsPrivate d <;> cases intra <;> simp

theorem computeHolders_eq_filterMap (intra : Bool)
    (um : List (Decl × String × Bool)) :
    computeHoldersOfCascadingMembers intra um =
      um.filterMap (fun e =>
        if declIsPrivate e.1 && !intra then none
        else if e.2.2 then some (mangleTypeAsContext (some e.1)) else none) := by
  have key : ∀ (l : List (Decl × String × Bool)) (acc : List String),
      l.foldl (fun acc e =>
        if declIsPrivate e.1 && !intra then acc
        else if e.2.2 then acc ++ [mangleTypeAsContext (some e.1)] else acc)
        acc =
      acc ++ l.filterMap (fun e =>
        if declIsPrivate e.1 && !intra then none
        else if e.2.2 then some (mangleTypeAsContext (some e.1)) else none) := by
    intro l
    induction l with
    | nil => intro acc; simp
    | cons e es ih =>
      intro acc
      rw [List.foldl_cons]
      by_cases h1 : (declIsPrivate e.1 && !intra) = true
      · rw [if_pos h1, ih, List.filterMap_cons_none (by rw [if_pos h1])]
      · rw [if_neg h1]
        by_cases h2 : e.2.2 = true
        · rw [if_pos h2, ih,
            List.filterMap_cons_some (by rw [if_neg h1, if_pos h2])]
          simp
        · rw [if_neg h2, ih,
            List.filterMap_cons_none (by rw [if_neg h1, if_neg h2])]
  rw [computeHoldersOfCascadingMembers, key]
  simp

theorem holders_contains_iff (intra : Bool) (um : List (Decl × String × Bool))
    (s : String) :
    (computeHoldersOfCascadingMembers intra um).contains s = true ↔
      ∃ h m c, (h, m, c) ∈ um ∧ ¬(declIsPrivate h = true ∧ intra = false) ∧
        c = true ∧ mangleTypeAsContext (some h) = s := by
  rw [show (computeHoldersOfCascadingMembers intra um).contains s = true ↔
        s ∈ computeHoldersOfCascadingMembers intra um from List.elem_iff]
  rw [computeHolders_eq_filterMap, List.mem_filterMap]
  constructor
  · rintro ⟨e, hmem, hsome⟩
    by_cases h1 : (declIsPrivate e.1 && !intra) = true
    · rw [if_pos h1] at hsome
      exact absurd hsome (by simp)
    · rw [if_neg h1] at hsome
      by_cases h2 : e.2.2 = true
      · rw [if_pos h2] at hsome
        refine ⟨e.1, e.2.1, e.2.2, hmem, ?_, h2, Option.some.inj hsome⟩
        rw [← priv_skip_iff e.1 intra]
        exact h1
      · rw [if_neg h2] at hsome
        exact absurd hsome (by simp)
  · rintro ⟨h, m, c, hmem, hpass, rfl, rfl⟩
    refine ⟨(h, m, true), hmem, ?_⟩
    rw [if_neg (fun hc => hpass ((priv_skip_iff h intra).mp hc)), if_pos rfl]

/-- C3: the nominal-kind use edge for a used-members entry carries the
cascade flag "the holder's context belongs to the holders of cascading
members" — membership in the first-pass set, independent of the entry's
own flag; the set holds exactly the contexts of (non-skipped) holders
with at least one cascading member use; consequently, if any member use
on a holder cascades, every nominal-use edge for that holder's context
cascades (targets the interface node). -/
theorem nominal_use_cascade_from_holder_set (sd : String) (intra : Bool)
    (um : List (Decl × String × Bool)) :
    (∀ e ∈ enumerateNominalUses sd intra um,
      ∃ h m c, (h, m, c) ∈ um ∧ ¬(declIsPrivate h = true ∧ intra = false) ∧
        e = enumerateUse sd .nominal (mangleTypeAsContext (some h)) ""
          ((computeHoldersOfCascadingMembers intra um).contains
            (mangleTypeAsContext (some h)))) ∧
    (∀ h m c, (h, m, c) ∈ um →
      ¬(declIsPrivate h = true ∧ intra = false) →
      enumerateUse sd .nominal (mangleTypeAsContext (some h)) ""
        ((computeHoldersOfCascadingMembers intra um).contains
          (mangleTypeAsContext (some h))) ∈ enumerateNominalUses sd intra um) ∧
    (∀ s, (computeHoldersOfCascadingMembers intra um).contains s = true ↔
      ∃ h m c, (h, m, c) ∈ um ∧ ¬(declIsPrivate h = true ∧ intra = false) ∧
        c = true ∧ mangleTypeAsContext (some h) = s) ∧
    (∀ h m, (h, m, true) ∈ um →
      ¬(declIsPrivate h = true ∧ intra = false) →
      ∀ e ∈ enumerateNominalUses sd intra um,
        e.1.context = mangleTypeAsContext (some h) →
        e.2 = sourceFileInterfaceKey sd) := by
  refine ⟨?_, ?_, holders_contains_iff intra um, ?_⟩
  · intro e he
    obtain ⟨a, hmem, hsome⟩ := List.mem_filterMap.mp he
    by_cases h1 : (declIsPrivate a.1 && !intra) = true
    · rw [if_pos h1] at hsome
      exact absurd hsome (by simp)
    · rw [if_neg h1] at hsome
      exact ⟨a.1, a.2.1, a.2.2, hmem,
        fun hc => h1 ((priv_skip_iff a.1 intra).mpr hc),
        (Option.some.inj hsome).symm⟩
  · intro h m c hmem hpass
    apply List.mem_filterMap.mpr
    refine ⟨(h, m, c), hmem, ?_⟩
    rw [if_neg (fun hc => hpass ((priv_skip_iff h intra).mp hc))]
  · intro h m hmem hpass e he hctx
    obtain ⟨a, hamem, hsome⟩ := List.mem_filterMap.mp he
    by_cases h1 : (declIsPrivate a.1 && !intra) = true
    · rw [if_pos h1] at hsome
      exact absurd hsome (by simp)
    · rw [if_neg h1] at hsome
      obtain rfl : _ = e := Option.some.inj hsome
      have hctx2 : mangleTypeAsContext (some a.1) =
          mangleTypeAsContext (some h) := hctx
      rw [enumerateUse]
      rw [hctx2]
      have hin : (computeHoldersOfCascadingMembers intra um).contains
          (mangleTypeAsContext (some h)) = true :=
        (holders_contains_iff intra um _).mpr
          ⟨h, m, true, hmem, hpass, rfl, rfl⟩
      rw [hin]
      rfl

/-- A public struct used as a concrete holder type in witnesses. -/
def wPublicStruct : Decl :=
  .mk .structDecl "T" .publicLevel false "4TV" none [] none []

/-- Witness for C3: a single cascading member use on a public holder
yields a cascading nominal edge for it. -/
theorem nominal_use_cascade_from_holder_set_witness :
    (⟨.nominal, .interface, "4TV", ""⟩, sourceFileInterfaceKey "out") ∈
      enumerateNominalUses "out" false [(wPublicStruct, "m", true)] := by
  have happ := (nominal_use_cascade_from_holder_set "out" false
    [(wPublicStruct, "m", true)]).2.1 wPublicStruct "m" true (by simp)
    (by decide)
  simpa [enumerateUse, wPublicStruct, mangleTypeAsContext, Decl.usr,
    computeHoldersOfCascadingMembers, declIsPrivate, Decl.kind, Decl.access,
    DKind.isValueDecl, accessIsPrivate] using happ

/-! ## Private-use exclusion (C5) -/

/-- A file-private class used as a concrete holder in counterexamples. -/
def wFileprivateClass : Decl :=
  .mk .classDecl "P" .fileprivateLevel false "4PV" none [] none []

/-- C5 counterexample: with intrafile-dependency tracking off, an entry of
the used-members map whose holder is private still produces a member-kind
use edge — `enumerateMemberUses` applies no privacy filter — refuting
"no use edge of any kind is emitted". -/
theorem private_holder_member_use_still_emitted :
    declIsPrivate wFileprivateClass = true ∧
    (⟨.member, .interface, "4PV", "m"⟩, sourceFileInterfaceKey "out") ∈
      enumerateAllUses "out" false
        ⟨[], [], "h", [], [], [(wFileprivateClass, "m", true)], []⟩ := by
  decide

/-- C5 as amended: uses of private-access holders are dropped from the
nominal-kind edges and from the cascading-holder set, but the
member/potentialMember-kind edge is emitted for every used-members entry
regardless of the holder's privacy, with the entry's own cascade flag;
and intrafile tracking is forced on whenever type fingerprints are
enabled. -/
theorem private_use_exclusion_nominal_only (sd : String)
    (um : List (Decl × String × Bool)) :
    (∀ e ∈ enumerateNominalUses sd false um,
      ∃ h m c, (h, m, c) ∈ um ∧ declIsPrivate h = false ∧
        e.1.context = mangleTypeAsContext (some h)) ∧
    (∀ s, (computeHoldersOfCascadingMembers false um).contains s = true →
      ∃ h m, (h, m, true) ∈ um ∧ declIsPrivate h = false ∧
        mangleTypeAsContext (some h) = s) ∧
    (∀ h m c, (h, m, c) ∈ um →
      (if m.isEmpty then
        enumerateUse sd .potentialMember (mangleTypeAsContext (some h)) "" c
       else enumerateUse sd .member (mangleTypeAsContext (some h)) m c) ∈
        enumerateMemberUses sd um) ∧
    (∀ b, computeIncludeIntrafileDeps b true = true) := by
  refine ⟨?_, ?_, ?_, ?_⟩
  · intro e he
    obtain ⟨a, hmem, hsome⟩ := List.mem_filterMap.mp he
    by_cases hp : declIsPrivate a.1 = true
    · rw [if_pos (by simp [hp])] at hsome
      exact absurd hsome (by simp)
    · rw [if_neg (by simp [hp])] at hsome
      obtain rfl : _ = e := Option.some.inj hsome
      exact ⟨a.1, a.2.1, a.2.2, hmem, Bool.not_eq_true _ ▸ hp, rfl⟩
  · intro s hs
    obtain ⟨h, m, c, hmem, hpass, hc, hctx⟩ :=
      (holders_contains_iff false um s).mp hs
    subst hc
    refine ⟨h, m, hmem, ?_, hctx⟩
    by_cases hp : declIsPrivate h = true
    · exact absurd ⟨hp, rfl⟩ hpass
    · exact Bool.not_eq_true _ ▸ hp
  · intro h m c hmem
    have := List.mem_map_of_mem
      (fun e : Decl × String × Bool =>
        if e.2.1.isEmpty then
          enumerateUse sd .potentialMember (mangleTypeAsContext (some e.1)) ""
            e.2.2
        else
          enumerateUse sd .member (mangleTypeAsContext (some e.1)) e.2.1 e.2.2)
      hmem
    exact this
  · intro b
    simp [computeIncludeIntrafileDeps]

/-- Witness for C5's amended member-edge clause and the intrafile forcing,
at the counterexample's private holder. -/
theorem private_use_exclusion_nominal_only_witness :
    (⟨.member, .interface, "4PV", "m"⟩, sourceFileInterfaceKey "out") ∈
      enumerateMemberUses "out" [(wFileprivateClass, "m", true)] ∧
    computeIncludeIntrafileDeps false true = true := by
  have hm := (private_use_exclusion_nominal_only "out"
    [(wFileprivateClass, "m", true)]).2.2.1 wFileprivateClass "m" true
    (by simp)
  have hf := (private_use_exclusion_nominal_only "out"
    [(wFileprivateClass, "m", true)]).2.2.2 false
  refine ⟨?_, hf⟩
  simpa [enumerateUse, wFileprivateClass, mangleTypeAsContext, Decl.usr]
    using hm

/-! ## Structure of the declaration walk -/

theorem fnoIn_some_eq (inc : Bool) (st : WalkState) (ntd e : Decl) :
    findNominalsAndOperatorsIn inc st ntd (some e) =
      if excludeIfPrivate inc ntd then st
      else
        if !inc && !(!allInheritedProtocolsArePrivate e) &&
            allMembersArePrivate e then st
        else
          findNominalsAndOperatorsInMembers inc
            { (if inc || !allInheritedProtocolsArePrivate e then
                { st with allNominals := st.allNominals ++ [ntd] }
               else st) with
              potentialMemberHolders :=
                (if inc || !allInheritedProtocolsArePrivate e then
                  { st with allNominals := st.allNominals ++ [ntd] }
                 else st).potentialMemberHolders ++ [ntd] }
            e.members := by
  rw [findNominalsAndOperatorsIn]

theorem fnoIn_none_eq (inc : Bool) (st : WalkState) (ntd : Decl) :
    findNominalsAndOperatorsIn inc st ntd none =
      if excludeIfPrivate inc ntd then st
      else
        findNominalsAndOperatorsInMembers inc
          { st with allNominals := st.allNominals ++ [ntd],
                    potentialMemberHolders :=
                      st.potentialMemberHolders ++ [ntd] }
          ntd.members := by
  rw [findNominalsAndOperatorsIn]

theorem fnoInMembers_nil_eq (inc : Bool) (st : WalkState) :
    findNominalsAndOperatorsInMembers inc st [] = st := by
  rw [findNominalsAndOperatorsInMembers]

theorem fnoInMembers_cons_eq (inc : Bool) (st : WalkState) (d : Decl)
    (ds : List Decl) :
    findNominalsAndOperatorsInMembers inc st (d :: ds) =
      findNominalsAndOperatorsInMembers inc
        (if !d.kind.isValueDecl then st
         else if excludeIfPrivate inc d then st
         else if d.hasOperatorName then
           { st with memberOperatorDecls := st.memberOperatorDecls ++ [d] }
         else if d.kind.isNominal then
           findNominalsAndOperatorsIn inc st d none
         else st) ds := by
  rw [findNominalsAndOperatorsInMembers]

/-- Monotonicity of the walk: the potential-member-holder list only grows
by appending, and the walk preserves "allNominals is a sublist of
potentialMemberHolders". Proved by strong induction on the size measure
of the walk. -/
theorem walk_mono_aux (N : Nat) :
    (∀ (inc : Bool) (st : WalkState) (ntd : Decl) (ed : Option Decl),
      declSize (ed.getD ntd) ≤ N →
      (∃ t, (findNominalsAndOperatorsIn inc st ntd ed).potentialMemberHolders =
          st.potentialMemberHolders ++ t) ∧
      (List.Sublist st.allNominals st.potentialMemberHolders →
        List.Sublist (findNominalsAndOperatorsIn inc st ntd ed).allNominals
          (findNominalsAndOperatorsIn inc st ntd ed).potentialMemberHolders)) ∧
    (∀ (inc : Bool) (st : WalkState) (ms : List Decl),
      declListSize ms ≤ N →
      (∃ t,
        (findNominalsAndOperatorsInMembers inc st ms).potentialMemberHolders =
          st.potentialMemberHolders ++ t) ∧
      (List.Sublist st.allNominals st.potentialMemberHolders →
        List.Sublist (findNominalsAndOperatorsInMembers inc st ms).allNominals
          (findNominalsAndOperatorsInMembers inc st ms).potentialMemberHolders)) := by
  induction N using Nat.strong_induction_on with
  | _ N ih =>
    have hmembers : ∀ (inc : Bool) (st : WalkState) (ms : List Decl),
        declListSize ms < N →
        (∃ t,
          (findNominalsAndOperatorsInMembers inc st ms).potentialMemberHolders =
            st.potentialMemberHolders ++ t) ∧
        (List.Sublist st.allNominals st.potentialMemberHolders →
          List.Sublist
            (findNominalsAndOperatorsInMembers inc st ms).allNominals
            (findNominalsAndOperatorsInMembers inc st ms).potentialMemberHolders) :=
      fun inc st ms hlt => (ih (declListSize ms) hlt).2 inc st ms le_rfl
    have hsingle : ∀ (inc : Bool) (st : WalkState) (d : Decl),
        declSize d < N →
        (∃ t, (findNominalsAndOperatorsIn inc st d none).potentialMemberHolders =
            st.potentialMemberHolders ++ t) ∧
        (List.Sublist st.allNominals st.potentialMemberHolders →
          List.Sublist (findNominalsAndOperatorsIn inc st d none).allNominals
            (findNominalsAndOperatorsIn inc st d none).potentialMemberHolders) :=
      fun inc st d hlt => (ih (declSize d) hlt).1 inc st d none le_rfl
    constructor
    · intro inc st ntd ed hsize
      cases ed with
      | some e =>
        rw [fnoIn_some_eq]
        by_cases hx : excludeIfPrivate inc ntd = true
        · rw [if_pos hx]
          exact ⟨⟨[], by simp⟩, fun hrel => hrel⟩
        · rw [if_neg hx]
          by_cases hskip : (!inc && !(!allInheritedProtocolsArePrivate e) &&
              allMembersArePrivate e) = true
          · rw [if_pos hskip]
            exact ⟨⟨[], by simp⟩, fun hrel => hrel⟩
          · rw [if_neg hskip]
            have hsize2 : declListSize e.members < N :=
              lt_of_lt_of_le (declListSize_members_lt e)
                (by simpa using hsize)
            by_cases hpush : (inc || !allInheritedProtocolsArePrivate e) = true
            · rw [if_pos hpush]
              set st2 : WalkState :=
                { st with allNominals := st.allNominals ++ [ntd],
                          potentialMemberHolders :=
                            st.potentialMemberHolders ++ [ntd] } with hst2
              obtain ⟨⟨t, ht⟩, hrelm⟩ := hmembers inc st2 e.members hsize2
              refine ⟨⟨[ntd] ++ t, by rw [ht]; simp [hst2]⟩, ?_⟩
              intro hrel
              exact hrelm (List.Sublist.append hrel (List.Sublist.refl [ntd]))
            · rw [if_neg hpush]
              set st2 : WalkState :=
                { st with potentialMemberHolders :=
                            st.potentialMemberHolders ++ [ntd] } with hst2
              obtain ⟨⟨t, ht⟩, hrelm⟩ := hmembers inc st2 e.members hsize2
              refine ⟨⟨[ntd] ++ t, by rw [ht]; simp [hst2]⟩, ?_⟩
              intro hrel
              exact hrelm
                (hrel.trans (List.sublist_append_left _ [ntd]))
      | none =>
        rw [fnoIn_none_eq]
        by_cases hx : excludeIfPrivate inc ntd = true
        · rw [if_pos hx]
          exact ⟨⟨[], by simp⟩, fun hrel => hrel⟩
        · rw [if_neg hx]
          have hsize2 : declListSize ntd.members < N :=
            lt_of_lt_of_le (declListSize_members_lt ntd) (by simpa using hsize)
          set st2 : WalkState :=
            { st with allNominals := st.allNominals ++ [ntd],
                      potentialMemberHolders :=
                        st.potentialMemberHolders ++ [ntd] } with hst2
          obtain ⟨⟨t, ht⟩, hrelm⟩ := hmembers inc st2 ntd.members hsize2
          refine ⟨⟨[ntd] ++ t, by rw [ht]; simp [hst2]⟩, ?_⟩
          intro hrel
          exact hrelm (List.Sublist.append hrel (List.Sublist.refl [ntd]))
    · intro inc st ms hsize
      cases ms with
      | nil =>
        rw [fnoInMembers_nil_eq]
        exact ⟨⟨[], by simp⟩, fun hrel => hrel⟩
      | cons d ds =>
        rw [fnoInMembers_cons_eq]
        have hsized : declSize d < N := by
          have : declListSize (d :: ds) = 1 + declSize d + declListSize ds :=
            rfl
          omega
        have hsizeds : declListSize ds < N := by
          have : declListSize (d :: ds) = 1 + declSize d + declListSize ds :=
            rfl
          omega
        have hstep : (∃ t,
            (if !d.kind.isValueDecl then st
             else if excludeIfPrivate inc d then st
             else if d.hasOperatorName then
               { st with memberOperatorDecls := st.memberOperatorDecls ++ [d] }
             else if d.kind.isNominal then
               findNominalsAndOperatorsIn inc st d none
             else st).potentialMemberHolders =
              st.potentialMemberHolders ++ t) ∧
            (List.Sublist st.allNominals st.potentialMemberHolders →
              List.Sublist
              ((if !d.kind.isValueDecl then st
               else if excludeIfPrivate inc d then st
               else if d.hasOperatorName then
                 { st with memberOperatorDecls :=
                     st.memberOperatorDecls ++ [d] }
               else if d.kind.isNominal then
                 findNominalsAndOperatorsIn inc st d none
               else st).allNominals)
              (if !d.kind.isValueDecl then st
               else if excludeIfPrivate inc d then st
               else if d.hasOperatorName then
                 { st with memberOperatorDecls :=
                     st.memberOperatorDecls ++ [d] }
               else if d.kind.isNominal then
                 findNominalsAndOperatorsIn inc st d none
               else st).potentialMemberHolders) := by
          by_cases h1 : (!d.kind.isValueDecl) = true
          · rw [if_pos h1]
            exact ⟨⟨[], by simp⟩, fun hrel => hrel⟩
          · rw [if_neg h1]
            by_cases h2 : excludeIfPrivate inc d = true
            · rw [if_pos h2]
              exact ⟨⟨[], by simp⟩, fun hrel => hrel⟩
            · rw [if_neg h2]
              by_cases h3 : d.hasOperatorName = true
              · rw [if_pos h3]
                exact ⟨⟨[], by simp⟩, fun hrel => hrel⟩
              · rw [if_neg h3]
                by_cases h4 : d.kind.isNominal = true
                · rw [if_pos h4]
                  exact hsingle inc st d hsized
                · rw [if_neg h4]
                  exact ⟨⟨[], by simp⟩, fun hrel => hrel⟩
        obtain ⟨⟨t1, ht1⟩, hrel1⟩ := hstep
        obtain ⟨⟨t2, ht2⟩, hrel2⟩ := hmembers inc _ ds hsizeds
        exact ⟨⟨t1 ++ t2, by rw [ht2, ht1]; simp⟩,
          fun hrel => hrel2 (hrel1 hrel)⟩

/-! ## Extension contributions (C6) -/

/-- One extension's contribution to `valuesInExtensions` (helper view of
the loop body of `findValuesInExtensions`). -/
def extensionContribution (inc : Bool) (ed : Decl) : List (Decl × Decl) :=
  match ed.extendedNominal with
  | none => []
  | some ntd =>
    if excludeIfPrivate inc ntd then []
    else if !inc &&
        (!allInheritedProtocolsArePrivate ed || allMembersArePrivate ed) then []
    else
      ed.members.filterMap (fun m =>
        if m.kind.isValueDecl && m.hasName && (inc || !declIsPrivate m) then
          some (ntd, m)
        else none)

theorem findValuesInExtensions_eq (inc : Bool) (eds : List Decl) :
    findValuesInExtensions inc eds = eds.flatMap (extensionContribution inc) := by
  have hstep : ∀ (acc : List (Decl × Decl)) (ed : Decl),
      (match ed.extendedNominal with
       | none => acc
       | some ntd =>
         if excludeIfPrivate inc ntd then acc
         else if !inc &&
             (!allInheritedProtocolsArePrivate ed ||
               allMembersArePrivate ed) then acc
         else
           acc ++ ed.members.filterMap (fun m =>
             if m.kind.isValueDecl && m.hasName && (inc || !declIsPrivate m)
             then some (ntd, m)
             else none)) = acc ++ extensionContribution inc ed := by
    intro acc ed
    cases hext : ed.extendedNominal with
    | none =>
      show acc = acc ++ extensionContribution inc ed
      simp [extensionContribution, hext]
    | some ntd =>
      show (if excludeIfPrivate inc ntd then acc
        else if !inc &&
            (!allInheritedProtocolsArePrivate ed ||
              allMembersArePrivate ed) then acc
        else
          acc ++ ed.members.filterMap (fun m =>
            if m.kind.isValueDecl && m.hasName && (inc || !declIsPrivate m)
            then some (ntd, m)
            else none)) = acc ++ extensionContribution inc ed
      by_cases h1 : excludeIfPrivate inc ntd = true
      · rw [if_pos h1]
        simp [extensionContribution, hext, h1]
      · rw [if_neg h1]
        by_cases h2 : (!inc && (!allInheritedProtocolsArePrivate ed ||
            allMembersArePrivate ed)) = true
        · rw [if_pos h2]
          simp [extensionContribution, hext, h1, h2]
        · rw [if_neg h2]
          simp [extensionContribution, hext, h1, h2]
  have key : ∀ (l : List Decl) (acc : List (Decl × Decl)),
      l.foldl (fun acc ed =>
        match ed.extendedNominal with
        | none => acc
        | some ntd =>
          if excludeIfPrivate inc ntd then acc
          else if !inc &&
              (!allInheritedProtocolsArePrivate ed ||
                allMembersArePrivate ed) then acc
          else
            acc ++ ed.members.filterMap (fun m =>
              if m.kind.isValueDecl && m.hasName &&
                  (inc || !declIsPrivate m) then some (ntd, m)
              else none)) acc =
      acc ++ l.flatMap (extensionContribution inc) := by
    intro l
    induction l with
    | nil => intro acc; simp
    | cons ed eds ih =>
      intro acc
      rw [List.foldl_cons, List.flatMap_cons, ih]
      show (match ed.extendedNominal with
        | none => acc
        | some ntd =>
          if excludeIfPrivate inc ntd then acc
          else if !inc &&
              (!allInheritedProtocolsArePrivate ed ||
                allMembersArePrivate ed) then acc
          else
            acc ++ ed.members.filterMap (fun m =>
              if m.kind.isValueDecl && m.hasName &&
                  (inc || !declIsPrivate m) then some (ntd, m)
              else none)) ++ eds.flatMap (extensionContribution inc) =
        acc ++ (extensionContribution inc ed ++
          eds.flatMap (extensionContribution inc))
      rw [hstep acc ed, List.append_assoc]
  rw [findValuesInExtensions, key]
  simp

/-- A public named func member for extension examples. -/
def wPubMember : Decl := .mk .funcDecl "m" .publicLevel false "" none [] none []

/-- An inherited entry that is an existential over one private protocol. -/
def wPrivProtoInherited : InheritedType := .existential [.privateLevel]

/-- An inherited entry that is an existential over one public protocol. -/
def wPublicProtoInherited : InheritedType := .existential [.publicLevel]

/-- Extension of the public struct conforming to a public protocol, with a
public named member. -/
def wExtConforming : Decl :=
  .mk .extensionDecl "" .publicLevel false "" none [wPubMember]
    (some wPublicStruct) [wPublicProtoInherited]

/-- Extension of the public struct with only private inherited protocols
and a public named member. -/
def wExtJustMembers : Decl :=
  .mk .extensionDecl "" .publicLevel false "" none [wPubMember]
    (some wPublicStruct) [wPrivProtoInherited]

/-- C6 counterexample: an extension that conforms to a non-private
inherited type and has a non-private named member — qualifying under the
claim's rule — contributes zero (holder, member) providers, because
`findValuesInExtensions` skips any extension with a non-private inherited
protocol. -/
theorem conforming_extension_emits_no_member_providers :
    allInheritedProtocolsArePrivate wExtConforming = false ∧
    wPubMember ∈ wExtConforming.members ∧
    wPubMember.kind.isValueDecl = true ∧ wPubMember.hasName = true ∧
    declIsPrivate wPubMember = false ∧
    wExtConforming.extendedNominal = some wPublicStruct ∧
    declIsPrivate wPublicStruct = false ∧
    (findValuesInExtensions false [wExtConforming]).length = 0 := by
  refine ⟨rfl, ?_, rfl, rfl, rfl, rfl, rfl, rfl⟩
  show wPubMember ∈ [wPubMember]
  simp

/-- C6 as amended: with `includePrivateDeclarations = false`, an
extension's nominal/potential-member contribution is omitted entirely
when all inherited protocols and all members are private, and is present
(the extended nominal joins the potential-member holders) when the
extended nominal is not private and some inherited protocol or some
member is non-private; member providers, however, are emitted — one per
non-private named member — exactly for the extensions all of whose
inherited protocols are private and that have at least one non-private
member, so an extension conforming to a non-private inherited type
contributes no member providers. -/
theorem extension_member_providers_rule :
    (∀ (st : WalkState) (ntd e : Decl),
      allInheritedProtocolsArePrivate e = true →
      allMembersArePrivate e = true →
      findNominalsAndOperatorsIn false st ntd (some e) = st) ∧
    (∀ (st : WalkState) (ntd e : Decl), declIsPrivate ntd = false →
      (allInheritedProtocolsArePrivate e = false ∨
        allMembersArePrivate e = false) →
      ∃ t, (findNominalsAndOperatorsIn false st ntd
          (some e)).potentialMemberHolders =
        st.potentialMemberHolders ++ [ntd] ++ t) ∧
    (∀ (eds : List Decl) (ed ntd : Decl), ed ∈ eds →
      ed.extendedNominal = some ntd → declIsPrivate ntd = false →
      allInheritedProtocolsArePrivate ed = true →
      allMembersArePrivate ed = false →
      ∀ m ∈ ed.members, m.kind.isValueDecl = true → m.hasName = true →
        declIsPrivate m = false →
        (ntd, m) ∈ findValuesInExtensions false eds) ∧
    (∀ (eds : List Decl) (q : Decl × Decl),
      q ∈ findValuesInExtensions false eds →
      ∃ ed, ed ∈ eds ∧ ed.extendedNominal = some q.1 ∧
        declIsPrivate q.1 = false ∧
        allInheritedProtocolsArePrivate ed = true ∧
        allMembersArePrivate ed = false ∧ q.2 ∈ ed.members ∧
        q.2.kind.isValueDecl = true ∧ q.2.hasName = true ∧
        declIsPrivate q.2 = false) := by
  refine ⟨?_, ?_, ?_, ?_⟩
  · intro st ntd e h1 h2
    rw [fnoIn_some_eq]
    by_cases hx : excludeIfPrivate false ntd = true
    · rw [if_pos hx]
    · rw [if_neg hx, if_pos (by simp [h1, h2])]
  · intro st ntd e hx hor
    rw [fnoIn_some_eq]
    rw [if_neg (by simp [excludeIfPrivate, hx])]
    rw [if_neg (by rcases hor with h | h <;> simp [h])]
    by_cases hpush : (false || !allInheritedProtocolsArePrivate e) = true
    · rw [if_pos hpush]
      obtain ⟨t, ht⟩ := ((walk_mono_aux (declListSize e.members)).2 false
        { st with allNominals := st.allNominals ++ [ntd],
                  potentialMemberHolders :=
                    st.potentialMemberHolders ++ [ntd] }
        e.members le_rfl).1
      exact ⟨t, ht⟩
    · rw [if_neg hpush]
      obtain ⟨t, ht⟩ := ((walk_mono_aux (declListSize e.members)).2 false
        { st with potentialMemberHolders :=
                    st.potentialMemberHolders ++ [ntd] }
        e.members le_rfl).1
      exact ⟨t, ht⟩
  · intro eds ed ntd hmem hext hpriv hinh hmemb m hm hvd hname hmpriv
    rw [findValuesInExtensions_eq]
    apply List.mem_flatMap.mpr
    refine ⟨ed, hmem, ?_⟩
    simp only [extensionContribution, hext]
    rw [if_neg (by simp [excludeIfPrivate, hpriv]),
      if_neg (by simp [hinh, hmemb])]
    exact List.mem_filterMap.mpr
      ⟨m, hm, by rw [if_pos (by simp [hvd, hname, hmpriv])]⟩
  · intro eds q hq
    rw [findValuesInExtensions_eq] at hq
    obtain ⟨ed, hemem, hq⟩ := List.mem_flatMap.mp hq
    cases hext : ed.extendedNominal with
    | none =>
      simp only [extensionContribution, hext] at hq
      exact absurd hq (by simp)
    | some ntd =>
      simp only [extensionContribution, hext] at hq
      by_cases h1 : excludeIfPrivate false ntd = true
      · rw [if_pos h1] at hq
        exact absurd hq (by simp)
      · rw [if_neg h1] at hq
        by_cases h2 : (!false && (!allInheritedProtocolsArePrivate ed ||
            allMembersArePrivate ed)) = true
        · rw [if_pos h2] at hq
          exact absurd hq (by simp)
        · rw [if_neg h2] at hq
          obtain ⟨m, hm, hsome⟩ := List.mem_filterMap.mp hq
          by_cases h3 : (m.kind.isValueDecl && m.hasName &&
              (false || !declIsPrivate m)) = true
          · rw [if_pos h3] at hsome
            obtain rfl : (ntd, m) = q := Option.some.inj hsome
            have h2x : allInheritedProtocolsArePrivate ed = true ∧
                allMembersArePrivate ed = false := by
              revert h2
              cases allInheritedProtocolsArePrivate ed <;>
                cases allMembersArePrivate ed <;> simp
            have h3x : m.kind.isValueDecl = true ∧ m.hasName = true ∧
                declIsPrivate m = false := by
              revert h3
              cases m.kind.isValueDecl <;> cases m.hasName <;>
                cases declIsPrivate m <;> simp
            have h1x : declIsPrivate ntd = false := by
              revert h1
              simp [excludeIfPrivate]
            exact ⟨ed, hemem, hext, h1x, h2x.1, h2x.2, hm, h3x.1, h3x.2.1,
              h3x.2.2⟩
          · rw [if_neg h3] at hsome
            exact absurd hsome (by simp)

/-- Witness for C6's amended member-provider rule: a members-only
extension with a public member contributes that member. -/
theorem extension_member_providers_rule_witness :
    (wPublicStruct, wPubMember) ∈
      findValuesInExtensions false [wExtJustMembers] := by
  refine extension_member_providers_rule.2.2.1 [wExtJustMembers]
    wExtJustMembers wPublicStruct (by simp) rfl rfl rfl rfl wPubMember
    ?_ rfl rfl rfl
  show wPubMember ∈ [wPubMember]
  simp

/-! ## C10: potential-member holders contain the nominals -/

theorem fnoIn_rel (inc : Bool) (st : WalkState) (ntd : Decl)
    (ed : Option Decl)
    (h : List.Sublist st.allNominals st.potentialMemberHolders) :
    List.Sublist (findNominalsAndOperatorsIn inc st ntd ed).allNominals
      (findNominalsAndOperatorsIn inc st ntd ed).potentialMemberHolders :=
  ((walk_mono_aux (declSize (ed.getD ntd))).1 inc st ntd ed le_rfl).2 h

theorem findNominalsFromExtensions_rel (inc : Bool) :
    ∀ (eds : List Decl) (st : WalkState),
      List.Sublist st.allNominals st.potentialMemberHolders →
      List.Sublist (findNominalsFromExtensions inc st eds).allNominals
        (findNominalsFromExtensions inc st eds).potentialMemberHolders := by
  intro eds
  induction eds with
  | nil => intro st h; exact h
  | cons ed rest ih =>
    intro st h
    show List.Sublist
      (findNominalsFromExtensions inc
        (match ed.extendedNominal with
         | some ntd => findNominalsAndOperatorsIn inc st ntd (some ed)
         | none => st) rest).allNominals
      (findNominalsFromExtensions inc
        (match ed.extendedNominal with
         | some ntd => findNominalsAndOperatorsIn inc st ntd (some ed)
         | none => st) rest).potentialMemberHolders
    cases hext : ed.extendedNominal with
    | some ntd => exact ih _ (fnoIn_rel inc st ntd (some ed) h)
    | none => exact ih st h

theorem findNominalsInTopNominals_rel (inc : Bool) :
    ∀ (ns : List Decl) (st : WalkState),
      List.Sublist st.allNominals st.potentialMemberHolders →
      List.Sublist (findNominalsInTopNominals inc st ns).allNominals
        (findNominalsInTopNominals inc st ns).potentialMemberHolders := by
  intro ns
  induction ns with
  | nil => intro st h; exact h
  | cons n rest ih =>
    intro st h
    exact ih (findNominalsAndOperatorsIn inc st n none)
      (fnoIn_rel inc st n none h)

/-- C10: in every declaration walk the nominal providers are a sub-multiset
(in fact a sublist) of the potential-member-holder providers — whenever a
type is appended to `allNominals` it is also appended to
`potentialMemberHolders` — and the inclusion can be strict: with
`includePrivateDecls = false`, a non-private type reached through an
extension whose inherited protocols are all private but which has a
non-private member joins `potentialMemberHolders` without joining
`allNominals`. -/
theorem allNominals_sublist_potentialMemberHolders :
    (∀ (inc : Bool) (sf : SourceFileModel),
      List.Sublist (runDeclFinder inc sf).allNominals
        (runDeclFinder inc sf).potentialMemberHolders) ∧
    (declIsPrivate wPublicStruct = false ∧
     allInheritedProtocolsArePrivate wExtJustMembers = true ∧
     allMembersArePrivate wExtJustMembers = false ∧
     findNominalsAndOperatorsIn false ⟨[], [], []⟩ wPublicStruct
       (some wExtJustMembers) = ⟨[], [wPublicStruct], []⟩) := by
  constructor
  · intro inc sf
    exact findNominalsInTopNominals_rel inc _ _
      (findNominalsFromExtensions_rel inc _ ⟨[], [], []⟩ (List.Sublist.refl []))
  · refine ⟨rfl, rfl, rfl, ?_⟩
    rw [fnoIn_some_eq]
    rw [if_neg (by decide), if_neg (by decide), if_neg (by decide)]
    rw [show wExtJustMembers.members = [wPubMember] from rfl]
    rw [fnoInMembers_cons_eq]
    rw [if_neg (by decide), if_neg (by decide), if_neg (by decide),
      if_neg (by decide)]
    rw [fnoInMembers_nil_eq]
    rfl

/-! ## C9: determinism up to node-id assignment -/

theorem holders_contains_perm (intra : Bool)
    {umA umB : List (Decl × String × Bool)} (hperm : umA.Perm umB)
    (s : String) :
    (computeHoldersOfCascadingMembers intra umA).contains s =
    (computeHoldersOfCascadingMembers intra umB).contains s := by
  have hiff : (computeHoldersOfCascadingMembers intra umA).contains s = true ↔
      (computeHoldersOfCascadingMembers intra umB).contains s = true := by
    rw [holders_contains_iff, holders_contains_iff]
    constructor
    · rintro ⟨h, m, c, hmem, hp, hc, hs⟩
      exact ⟨h, m, c, hperm.mem_iff.mp hmem, hp, hc, hs⟩
    · rintro ⟨h, m, c, hmem, hp, hc, hs⟩
      exact ⟨h, m, c, hperm.mem_iff.mpr hmem, hp, hc, hs⟩
  by_cases hA : (computeHoldersOfCascadingMembers intra umA).contains s = true
  · rw [hA, hiff.mp hA]
  · have hA2 : (computeHoldersOfCascadingMembers intra umA).contains s =
        false := Bool.eq_false_iff.mpr hA
    have hB2 : (computeHoldersOfCascadingMembers intra umB).contains s =
        false := Bool.eq_false_iff.mpr (fun hb => hA (hiff.mpr hb))
    rw [hA2, hB2]

theorem nominalUses_perm (sd : String) (intra : Bool)
    {umA umB : List (Decl × String × Bool)} (hperm : umA.Perm umB) :
    (enumerateNominalUses sd intra umA).Perm
      (enumerateNominalUses sd intra umB) := by
  have hfun : (fun (e : Decl × String × Bool) =>
      if declIsPrivate e.1 && !intra then none
      else some (enumerateUse sd .nominal (mangleTypeAsContext (some e.1)) ""
        ((computeHoldersOfCascadingMembers intra umB).contains
          (mangleTypeAsContext (some e.1))))) =
      (fun (e : Decl × String × Bool) =>
      if declIsPrivate e.1 && !intra then none
      else some (enumerateUse sd .nominal (mangleTypeAsContext (some e.1)) ""
        ((computeHoldersOfCascadingMembers intra umA).contains
          (mangleTypeAsContext (some e.1))))) := by
    funext e
    rw [holders_contains_perm intra hperm]
  show (umA.filterMap (fun (e : Decl × String × Bool) =>
      if declIsPrivate e.1 && !intra then none
      else some (enumerateUse sd .nominal (mangleTypeAsContext (some e.1)) ""
        ((computeHoldersOfCascadingMembers intra umA).contains
          (mangleTypeAsContext (some e.1)))))).Perm
    (umB.filterMap (fun (e : Decl × String × Bool) =>
      if declIsPrivate e.1 && !intra then none
      else some (enumerateUse sd .nominal (mangleTypeAsContext (some e.1)) ""
        ((computeHoldersOfCascadingMembers intra umB).contains
          (mangleTypeAsContext (some e.1))))))
  rw [hfun]
  exact hperm.filterMap _

theorem enumerateAllUses_perm (sd : String) (intra : Bool)
    (sfA sfB : SourceFileModel)
    (htop : sfA.topLevelNames.Perm sfB.topLevelNames)
    (hdyn : sfA.dynamicLookupNames.Perm sfB.dynamicLookupNames)
    (hum : sfA.usedMembers.Perm sfB.usedMembers)
    (hdeps : sfA.externalDependencies = sfB.externalDependencies) :
    (enumerateAllUses sd intra sfA).Perm (enumerateAllUses sd intra sfB) := by
  rw [enumerateAllUses, enumerateAllUses]
  refine List.Perm.append
    (List.Perm.append (List.Perm.append (htop.map _) (hdyn.map _)) ?_)
    (List.Perm.append (nominalUses_perm sd intra hum) (hum.map _))
  rw [hdeps]

/-- C9: construction is deterministic up to node-id assignment — for two
runs over the same unit whose reference-tracking maps are iterated in a
different order (modelled as permuted association lists, with the same
declaration stream and external-dependency list), the resulting graphs
have the same dependency-key set, the same fingerprint per key, and the
same set of arcs identified by their endpoint keys. -/
theorem construction_deterministic_up_to_node_ids (sd fp : String)
    (defs : List (DependencyKey × Option String)) (intra : Bool)
    (sfA sfB : SourceFileModel)
    (htop : sfA.topLevelNames.Perm sfB.topLevelNames)
    (hdyn : sfA.dynamicLookupNames.Perm sfB.dynamicLookupNames)
    (hum : sfA.usedMembers.Perm sfB.usedMembers)
    (hdeps : sfA.externalDependencies = sfB.externalDependencies) :
    ∃ gA gB,
      construct false sd fp defs (enumerateAllUses sd intra sfA) = some gA ∧
      construct false sd fp defs (enumerateAllUses sd intra sfB) = some gB ∧
      (∀ k, k ∈ nodeKeys gA ↔ k ∈ nodeKeys gB) ∧
      (∀ k, fpByKey gA k = fpByKey gB k) ∧
      (∀ q, q ∈ arcEndpointKeys gA ↔ q ∈ arcEndpointKeys gB) := by
  have hperm : (enumerateAllUses sd intra sfA).Perm
      (enumerateAllUses sd intra sfB) :=
    enumerateAllUses_perm sd intra sfA sfB htop hdyn hum hdeps
  obtain ⟨hext1, hsf1, hb1, -⟩ :=
    addAllDefinedDecls_spec sd defs (addSourceFileNodesToGraph emptyGraph sd fp)
      0 (g0_find_interface sd fp) (g0_bounded sd fp)
  have hprovI : foundIsProvider
      (addAllDefinedDecls sd (addSourceFileNodesToGraph emptyGraph sd fp) defs)
      (sourceFileInterfaceKey sd) :=
    extends_foundIsProvider hext1 (g0_provider_interface sd fp)
  have hprovM : foundIsProvider
      (addAllDefinedDecls sd (addSourceFileNodesToGraph emptyGraph sd fp) defs)
      (sourceFileImplementationKey sd) :=
    extends_foundIsProvider hext1 (g0_provider_implementation sd fp)
  have htargets : ∀ (sf : SourceFileModel) (p : DependencyKey × DependencyKey),
      p ∈ enumerateAllUses sd intra sf →
      foundIsProvider
        (addAllDefinedDecls sd (addSourceFileNodesToGraph emptyGraph sd fp)
          defs) p.2 := by
    intro sf p hp
    rcases allUses_target_cases sd intra sf p hp with h | h
    · rw [h]; exact hprovI
    · rw [h]; exact hprovM
  obtain ⟨gA, hgA, hextA, hbA, hkeysA, hstabA, hnewA, hnoneA, harcA⟩ :=
    addAllUsedDecls_spec (enumerateAllUses sd intra sfA) _ hb1 (htargets sfA)
  obtain ⟨gB, hgB, hextB, hbB, hkeysB, hstabB, hnewB, hnoneB, harcB⟩ :=
    addAllUsedDecls_spec (enumerateAllUses sd intra sfB) _ hb1 (htargets sfB)
  have hpermfst : ∀ k, k ∈ (enumerateAllUses sd intra sfA).map Prod.fst ↔
      k ∈ (enumerateAllUses sd intra sfB).map Prod.fst :=
    fun k => (hperm.map Prod.fst).mem_iff
  refine ⟨gA, gB, ?_, ?_, ?_, ?_, ?_⟩
  · rw [construct_false_eq]
    exact hgA
  · rw [construct_false_eq]
    exact hgB
  · intro k
    rw [hkeysA k, hkeysB k]
    constructor
    · rintro (h | h)
      · exact Or.inl h
      · exact Or.inr ((hpermfst k).mp h)
    · rintro (h | h)
      · exact Or.inl h
      · exact Or.inr ((hpermfst k).mpr h)
  · intro k
    by_cases hk : k ∈ nodeKeys
        (addAllDefinedDecls sd (addSourceFileNodesToGraph emptyGraph sd fp)
          defs)
    · simp only [fpByKey]
      rw [hstabA k hk, hstabB k hk]
    · by_cases hkm : k ∈ (enumerateAllUses sd intra sfA).map Prod.fst
      · simp only [fpByKey]
        rw [hnewA k hk hkm, hnewB k hk ((hpermfst k).mp hkm)]
      · simp only [fpByKey]
        rw [hnoneA k hk hkm,
          hnoneB k hk (fun hb => hkm ((hpermfst k).mpr hb))]
  · intro q
    rw [harcA, harcB]
    simp only [List.mem_append]
    constructor
    · rintro (h | h)
      · exact Or.inl h
      · exact Or.inr (hperm.mem_iff.mp h)
    · rintro (h | h)
      · exact Or.inl h
      · exact Or.inr (hperm.mem_iff.mpr h)

/-- Concrete units for the determinism witness: identical inputs up to the
iteration order of the top-level-names map. -/
def wSfA : SourceFileModel :=
  ⟨[], [], "h", [("a", true), ("b", false)], [],
   [(wPublicStruct, "m", true)], ["libX"]⟩

def wSfB : SourceFileModel :=
  ⟨[], [], "h", [("b", false), ("a", true)], [],
   [(wPublicStruct, "m", true)], ["libX"]⟩

/-- Witness for C9 at the concrete permuted units. -/
theorem construction_deterministic_up_to_node_ids_witness :
    ∃ gA gB,
      construct false "o" "h" [] (enumerateAllUses "o" false wSfA) = some gA ∧
      construct false "o" "h" [] (enumerateAllUses "o" false wSfB) = some gB ∧
      (∀ k, k ∈ nodeKeys gA ↔ k ∈ nodeKeys gB) ∧
      (∀ k, fpByKey gA k = fpByKey gB k) ∧
      (∀ q, q ∈ arcEndpointKeys gA ↔ q ∈ arcEndpointKeys gB) :=
  construction_deterministic_up_to_node_ids "o" "h" [] false wSfA wSfB
    (List.Perm.swap ("b", false) ("a", true) [])
    (List.Perm.refl []) (List.Perm.refl _) rfl

end SwiftDeps
